import Mathlib

/-!
Verification development for the ChatLab computational core: a shallow
embedding of the per-session relational store, the time-filter builder
(dbCore.ts), the repeat-chain analysis (repeat.ts), the mention analysis
(social.ts), the activity analyses (activity.ts), the ChatLab streaming
parser (chatlab.ts) and the streaming importer (streamImport.ts),
together with theorems settling the spec-level properties.

JavaScript Maps are modelled as insertion-ordered association lists,
Array.prototype.sort (which is stable) as stable insertion sort, and
Math.round on the nonnegative rationals occurring here as floor(x + 1/2).
-/

namespace ChatLab

/-! ## JavaScript Map model: insertion-ordered association lists -/

def mapGet {α β : Type} [DecidableEq α] : List (α × β) → α → Option β
  | [], _ => none
  | e :: rest, k => if e.1 = k then some e.2 else mapGet rest k

def mapSet {α β : Type} [DecidableEq α] : List (α × β) → α → β → List (α × β)
  | [], k, v => [(k, v)]
  | e :: rest, k, v => if e.1 = k then (k, v) :: rest else e :: mapSet rest k v

def mapDelete {α β : Type} [DecidableEq α] : List (α × β) → α → List (α × β)
  | [], _ => []
  | e :: rest, k => if e.1 = k then rest else e :: mapDelete rest k

def mapHas {α β : Type} [DecidableEq α] (l : List (α × β)) (k : α) : Bool :=
  (mapGet l k).isSome

/-- map.set(k, (map.get(k) or 0) + 1), the counting idiom used throughout. -/
def bumpCount {α : Type} [DecidableEq α] (l : List (α × Nat)) (k : α) : List (α × Nat) :=
  mapSet l k ((mapGet l k).getD 0 + 1)

/-! ## JavaScript arithmetic helpers

The number arithmetic of the analytics is exact here: a quotient of two
counts is the exact rational, and Math.round(x) is floor(x + 1/2) for the
nonnegative values that occur. For a quotient n/d with d positive,
floor(n/d + 1/2) equals the floor division of 2n + d by 2d, which keeps
every value kernel-computable. -/

/-- Math.round(n / d) for integer n and positive d. -/
def jsDivRound (n : Int) (d : Nat) : Int := Int.fdiv (2 * n + d) (2 * d)

/-- Math.round(n / d * 100) / 100: a ratio rounded to two decimals. -/
def round2Of (n : Int) (d : Nat) : Rat := mkRat (jsDivRound (n * 100) d) 100

/-- Math.round(n / d * 10000) / 100: a percentage with two decimals. -/
def roundPctOf (n : Nat) (d : Nat) : Rat := mkRat (jsDivRound (n * 10000) d) 100

/-- JavaScript String.prototype.trim: strips whitespace from both ends. -/
def jsTrim (s : String) : String :=
  String.mk (((s.toList.dropWhile Char.isWhitespace).reverse.dropWhile
    Char.isWhitespace).reverse)

/-! ## Per-session store model (tables created by streamImport.ts) -/

/-- A row of the member table. -/
structure MemberRow where
  id : Nat
  platformId : String
  name : String
  nickname : Option String
deriving DecidableEq, Repr

/-- A row of the message table; the id column is the AUTOINCREMENT rowid,
which records insertion order. -/
structure MessageRow where
  id : Nat
  senderId : Nat
  ts : Int
  msgType : Int
  content : Option String
deriving DecidableEq, Repr

/-- A row of the member_name_history table. -/
structure HistoryRow where
  memberId : Nat
  name : String
  startTs : Int
  endTs : Option Int
deriving DecidableEq, Repr

/-- One per-session store: the three data tables. -/
structure SessionDb where
  members : List MemberRow
  messages : List MessageRow
  history : List HistoryRow
deriving DecidableEq, Repr

/-- The reserved display name identifying system/placeholder senders. -/
def systemName : String := "系统消息"

/-- Lookup of the member row joined to a message (JOIN member m ON
msg.sender_id = m.id; ids are unique so at most one row matches). -/
def findMember (members : List MemberRow) (senderId : Nat) : Option MemberRow :=
  members.find? (fun m => m.id == senderId)

/-! ## Time filter (dbCore.ts buildTimeFilter) -/

/-- The optional inclusive timestamp bound taken by every analytics query. -/
structure TimeFilter where
  startTs : Option Int := none
  endTs : Option Int := none
deriving DecidableEq, Repr

/-- The WHERE clause produced by buildTimeFilter, as a predicate on a
message timestamp: ts at least startTs when present, ts at most endTs when
present; an absent filter produces no condition at all. -/
def timeFilterPred (filter : Option TimeFilter) (ts : Int) : Bool :=
  (match filter with
   | none => true
   | some f =>
     (match f.startTs with
      | none => true
      | some s => decide (s ≤ ts)) &&
     (match f.endTs with
      | none => true
      | some e => decide (ts ≤ e)))

/-- The row set an analytics query operates on: the message table filtered
by the buildTimeFilter clause conjoined with the function-specific extra
WHERE conditions (modelled by an arbitrary predicate). -/
def fetchMessages (db : SessionDb) (filter : Option TimeFilter)
    (extra : MessageRow → Bool) : List MessageRow :=
  db.messages.filter (fun m => timeFilterPred filter m.ts && extra m)

/-- SQLite TRIM(X): strips space characters (U+0020) from both ends. -/
def sqlTrim (s : String) : String :=
  String.mk (((s.toList.dropWhile (fun c => c = ' ')).reverse.dropWhile
    (fun c => c = ' ')).reverse)

/-! ## Repeat-chain analysis (repeat.ts getRepeatAnalysis)

The SQL fetch selects text messages (type 0) with non-blank content from
non-system senders, joined to the member table, ordered by ts then id; the
scan then maintains a current repeated content and an ordered chain. -/

/-- A fetched row of the repeat-analysis SELECT. -/
structure RMsg where
  id : Nat
  senderId : Nat
  content : String
  ts : Int
  platformId : String
  name : String
deriving DecidableEq, Repr

structure ChainEntry where
  senderId : Nat
  content : String
  ts : Int
deriving DecidableEq, Repr

structure ContentStat where
  count : Nat
  maxChainLength : Nat
  originatorId : Nat
  lastTs : Int
deriving DecidableEq, Repr

structure FastStat where
  totalDiff : Int
  count : Nat
deriving DecidableEq, Repr

structure MemberBrief where
  platformId : String
  name : String
deriving DecidableEq, Repr

/-- The mutable scan state of getRepeatAnalysis. -/
structure RepeatAcc where
  originatorCount : List (Nat × Nat)
  initiatorCount : List (Nat × Nat)
  breakerCount : List (Nat × Nat)
  memberMessageCount : List (Nat × Nat)
  memberInfo : List (Nat × MemberBrief)
  chainLengthCount : List (Nat × Nat)
  contentStats : List (String × ContentStat)
  currentContent : Option String
  repeatChain : List ChainEntry
  totalRepeatChains : Nat
  totalChainLength : Nat
  fastestRepeaterStats : List (Nat × FastStat)
deriving DecidableEq, Repr

def repeatInit : RepeatAcc :=
  ⟨[], [], [], [], [], [], [], none, [], 0, 0, []⟩

/-- The fastest-follower loop inside processRepeatChain: for each chain
entry after the first, the time delta to the previous entry (in
milliseconds) is accumulated when it is at most 20 seconds. -/
def updateFastest (stats : List (Nat × FastStat)) (chain : List ChainEntry) :
    List (Nat × FastStat) :=
  (chain.zip chain.tail).foldl
    (fun s p =>
      let diff := (p.2.ts - p.1.ts) * 1000
      if diff ≤ 20 * 1000 then
        let cur := (mapGet s p.2.senderId).getD ⟨0, 0⟩
        mapSet s p.2.senderId ⟨cur.totalDiff + diff, cur.count + 1⟩
      else s)
    stats

/-- processRepeatChain: a chain of length at least 3 counts; first sender is
the originator, second the initiator, the closing sender (if any) the
breaker; content statistics and the fastest-follower samples are updated. -/
def processRepeatChain (acc : RepeatAcc) (chain : List ChainEntry)
    (breakerId : Option Nat) : RepeatAcc :=
  match chain with
  | c0 :: c1 :: _ :: _ =>
    let chainLength := chain.length
    let acc1 := { acc with
      totalRepeatChains := acc.totalRepeatChains + 1
      totalChainLength := acc.totalChainLength + chainLength
      originatorCount := bumpCount acc.originatorCount c0.senderId
      initiatorCount := bumpCount acc.initiatorCount c1.senderId
      breakerCount :=
        match breakerId with
        | some b => bumpCount acc.breakerCount b
        | none => acc.breakerCount
      chainLengthCount := bumpCount acc.chainLengthCount chainLength }
    let content := c0.content
    let chainTs := c0.ts
    let contentStats :=
      match mapGet acc1.contentStats content with
      | some existing =>
        let e1 := { existing with
          count := existing.count + 1
          lastTs := max existing.lastTs chainTs }
        let e2 := if chainLength > e1.maxChainLength then
            { e1 with maxChainLength := chainLength, originatorId := c0.senderId }
          else e1
        mapSet acc1.contentStats content e2
      | none => mapSet acc1.contentStats content ⟨1, chainLength, c0.senderId, chainTs⟩
    { acc1 with
      contentStats := contentStats
      fastestRepeaterStats := updateFastest acc1.fastestRepeaterStats chain }
  | _ => acc

/-- One step of the repeat scan: record member info and per-member message
count; a message whose trimmed content equals the current content extends
the chain only when its sender differs from the sender of the last chain entry;
any other content closes the chain (the closing sender is the breaker) and
starts a new one. -/
def repeatStep (acc : RepeatAcc) (msg : RMsg) : RepeatAcc :=
  let acc0 := { acc with
    memberInfo :=
      if mapHas acc.memberInfo msg.senderId then acc.memberInfo
      else mapSet acc.memberInfo msg.senderId ⟨msg.platformId, msg.name⟩
    memberMessageCount := bumpCount acc.memberMessageCount msg.senderId }
  let content := jsTrim msg.content
  if some content = acc0.currentContent then
    let lastSender := (acc0.repeatChain.getLast?).map ChainEntry.senderId
    if lastSender ≠ some msg.senderId then
      { acc0 with repeatChain := acc0.repeatChain ++ [⟨msg.senderId, content, msg.ts⟩] }
    else acc0
  else
    let acc1 := processRepeatChain acc0 acc0.repeatChain (some msg.senderId)
    { acc1 with
      currentContent := some content
      repeatChain := [⟨msg.senderId, content, msg.ts⟩] }

structure RankItem where
  memberId : Nat
  platformId : String
  name : String
  count : Nat
  percentage : Rat
deriving DecidableEq, Repr

structure RateItem where
  memberId : Nat
  platformId : String
  name : String
  count : Nat
  totalMessages : Nat
  rate : Rat
deriving DecidableEq, Repr

structure FastItem where
  memberId : Nat
  platformId : String
  name : String
  count : Nat
  avgTimeDiff : Int
deriving DecidableEq, Repr

structure ChainLengthItem where
  length : Nat
  count : Nat
deriving DecidableEq, Repr

structure HotContent where
  content : String
  count : Nat
  maxChainLength : Nat
  originatorName : String
  lastTs : Int
deriving DecidableEq, Repr

def buildRankList (countMap : List (Nat × Nat)) (total : Nat)
    (memberInfo : List (Nat × MemberBrief)) : List RankItem :=
  let items := countMap.foldl (fun items e =>
    match mapGet memberInfo e.1 with
    | some info => items ++ [⟨e.1, info.platformId, info.name, e.2,
        if total > 0 then roundPctOf e.2 total else 0⟩]
    | none => items) []
  List.insertionSort (fun a b => b.count ≤ a.count) items

def buildRateList (countMap : List (Nat × Nat))
    (memberInfo : List (Nat × MemberBrief))
    (memberMessageCount : List (Nat × Nat)) : List RateItem :=
  let items := countMap.foldl (fun items e =>
    let totalMessages := (mapGet memberMessageCount e.1).getD 0
    match mapGet memberInfo e.1 with
    | some info =>
      if totalMessages > 0 then
        items ++ [⟨e.1, info.platformId, info.name, e.2, totalMessages,
          roundPctOf e.2 totalMessages⟩]
      else items
    | none => items) []
  List.insertionSort (fun a b => b.rate ≤ a.rate) items

/-- Members with fewer than 5 in-window repeat samples are filtered out;
the rest ranked by average reaction time, fastest first. -/
def buildFastestList (fastest : List (Nat × FastStat))
    (memberInfo : List (Nat × MemberBrief)) : List FastItem :=
  let items := fastest.foldl (fun items e =>
    if e.2.count < 5 then items
    else match mapGet memberInfo e.1 with
    | some info => items ++ [⟨e.1, info.platformId, info.name, e.2.count,
        jsDivRound e.2.totalDiff e.2.count⟩]
    | none => items) []
  List.insertionSort (fun a b => a.avgTimeDiff ≤ b.avgTimeDiff) items

structure RepeatResult where
  originators : List RankItem
  initiators : List RankItem
  breakers : List RankItem
  fastestRepeaters : List FastItem
  originatorRates : List RateItem
  initiatorRates : List RateItem
  breakerRates : List RateItem
  chainLengthDistribution : List ChainLengthItem
  hotContents : List HotContent
  avgChainLength : Rat
  totalRepeatChains : Nat
deriving DecidableEq, Repr

/-- The defined empty result of getRepeatAnalysis (returned when the store
is missing; the source object leaves fastestRepeaters absent). -/
def emptyRepeatResult : RepeatResult :=
  ⟨[], [], [], [], [], [], [], [], [], 0, 0⟩

/-- The in-memory part of getRepeatAnalysis on the fetched row list. -/
def getRepeatAnalysisCore (rows : List RMsg) : RepeatResult :=
  let acc0 := rows.foldl repeatStep repeatInit
  let acc := processRepeatChain acc0 acc0.repeatChain none
  let chainLengthDistribution :=
    List.insertionSort (fun (a b : ChainLengthItem) => a.length ≤ b.length)
      (acc.chainLengthCount.map (fun e => ⟨e.1, e.2⟩))
  let hotContents :=
    List.insertionSort (fun (a b : HotContent) => b.maxChainLength ≤ a.maxChainLength)
      (acc.contentStats.map (fun e =>
        ⟨e.1, e.2.count, e.2.maxChainLength,
         ((mapGet acc.memberInfo e.2.originatorId).map MemberBrief.name).getD "未知",
         e.2.lastTs⟩))
  { originators := buildRankList acc.originatorCount acc.totalRepeatChains acc.memberInfo,
    initiators := buildRankList acc.initiatorCount acc.totalRepeatChains acc.memberInfo,
    breakers := buildRankList acc.breakerCount acc.totalRepeatChains acc.memberInfo,
    fastestRepeaters := buildFastestList acc.fastestRepeaterStats acc.memberInfo,
    originatorRates := buildRateList acc.originatorCount acc.memberInfo acc.memberMessageCount,
    initiatorRates := buildRateList acc.initiatorCount acc.memberInfo acc.memberMessageCount,
    breakerRates := buildRateList acc.breakerCount acc.memberInfo acc.memberMessageCount,
    chainLengthDistribution := chainLengthDistribution,
    hotContents := hotContents.take 50,
    avgChainLength := if acc.totalRepeatChains > 0 then
        round2Of acc.totalChainLength acc.totalRepeatChains else 0,
    totalRepeatChains := acc.totalRepeatChains }

/-- The extra WHERE conditions of the repeat-analysis SELECT: non-system
sender, type 0, content not null and not blank after TRIM. -/
def repeatCond (db : SessionDb) (m : MessageRow) : Bool :=
  match findMember db.members m.senderId with
  | some mem =>
    mem.name != systemName && m.msgType == 0 &&
      (match m.content with
       | some c => sqlTrim c != ""
       | none => false)
  | none => false

def toRMsg (db : SessionDb) (m : MessageRow) : Option RMsg :=
  match findMember db.members m.senderId, m.content with
  | some mem, some c => some ⟨m.id, m.senderId, c, m.ts, mem.platformId, mem.name⟩
  | _, _ => none

/-- ORDER BY msg.ts ASC, msg.id ASC. -/
def rmsgLe (a b : RMsg) : Prop := a.ts < b.ts ∨ (a.ts = b.ts ∧ a.id ≤ b.id)

instance : DecidableRel rmsgLe := fun a b =>
  if h : a.ts < b.ts ∨ (a.ts = b.ts ∧ a.id ≤ b.id) then .isTrue h else .isFalse h

/-- The repeat-analysis row fetch: time filter plus the extra conditions,
joined to the member table, ordered by ts then id. -/
def repeatFetch (db : SessionDb) (filter : Option TimeFilter) : List RMsg :=
  List.insertionSort rmsgLe
    ((fetchMessages db filter (repeatCond db)).filterMap (toRMsg db))

/-- getRepeatAnalysis: the empty result on a missing store, otherwise the
scan over the fetched rows. -/
def getRepeatAnalysis (dbOpt : Option SessionDb) (filter : Option TimeFilter) :
    RepeatResult :=
  match dbOpt with
  | none => emptyRepeatResult
  | some db => getRepeatAnalysisCore (repeatFetch db filter)

/-! ## Mention analysis (social.ts getMentionAnalysis) -/

/-- One character of a mention token: the regex class excluding whitespace
and the at sign. -/
def isMentionChar (c : Char) : Bool := !c.isWhitespace && c != '@'

/-- The scanner of the global mention regex, an at sign followed by one or
more characters of the token class: inTok says whether an at sign was seen
and cur holds the token collected since; a token closes at the end of the
input or at a non-token character, and a closing at sign opens the next
token, matching global regex resumption. -/
def mentionTokensGo : List Char → Bool → List Char → List String
  | [], inTok, cur => if inTok && !cur.isEmpty then [String.mk cur] else []
  | c :: rest, true, cur =>
    if isMentionChar c then mentionTokensGo rest true (cur ++ [c])
    else
      (if !cur.isEmpty then [String.mk cur] else []) ++
      (if c = '@' then mentionTokensGo rest true []
       else mentionTokensGo rest false [])
  | c :: rest, false, _ =>
    if c = '@' then mentionTokensGo rest true []
    else mentionTokensGo rest false []

/-- All matches of the mention regex over a message content. -/
def extractMentions (s : String) : List String := mentionTokensGo s.toList false []

/-- The mention relation state: matrix[fromId][toId] = count, plus the
per-member totals. -/
structure MentionAcc where
  matrix : List (Nat × List (Nat × Nat))
  mentionedCount : List (Nat × Nat)
  mentionerCount : List (Nat × Nat)
  totalMentions : Nat
deriving DecidableEq, Repr

def mentionInit : MentionAcc := ⟨[], [], [], 0⟩

/-- Processing the mention matches of one message: a match counts when it
resolves to a member, is not a self-mention, and that member was not
already counted within this message. -/
def mentionMsgStep (nameToMemberId : List (String × Nat)) (acc : MentionAcc)
    (senderId : Nat) (content : String) : MentionAcc :=
  let step := fun (st : MentionAcc × List Nat) (mentionedName : String) =>
    match mapGet nameToMemberId mentionedName with
    | some mentionedId =>
      if mentionedId ≠ 0 ∧ mentionedId ≠ senderId ∧ mentionedId ∉ st.2 then
        let fromMap := (mapGet st.1.matrix senderId).getD []
        let fromMap := mapSet fromMap mentionedId ((mapGet fromMap mentionedId).getD 0 + 1)
        (⟨mapSet st.1.matrix senderId fromMap,
          bumpCount st.1.mentionedCount mentionedId,
          bumpCount st.1.mentionerCount senderId,
          st.1.totalMentions + 1⟩, st.2 ++ [mentionedId])
      else st
    | none => st
  ((extractMentions content).foldl step (acc, [])).1

/-- The source field is named ratio; it holds Math.round(ratio * 100) / 100. -/
structure OneWayItem where
  fromMemberId : Nat
  fromName : String
  toMemberId : Nat
  toName : String
  fromToCount : Nat
  toFromCount : Nat
  ratioRounded : Rat
deriving DecidableEq, Repr

structure TwoWayItem where
  member1Id : Nat
  member1Name : String
  member2Id : Nat
  member2Name : String
  member1To2 : Nat
  member2To1 : Nat
  total : Nat
  balance : Rat
deriving DecidableEq, Repr

def pairKey (a b : Nat) : Nat × Nat := (min a b, max a b)

/-- One-way detection: each unordered pair is considered once; with at
least 3 total interactions, a directional share of at least 0.8 (or at
most 0.2, reversed) flags the pair, dominant member as the from side. -/
def detectOneWay (matrix : List (Nat × List (Nat × Nat)))
    (info : List (Nat × MemberBrief)) : List OneWayItem :=
  let step := fun (st : List (Nat × Nat) × List OneWayItem)
      (fromId : Nat) (toId : Nat) (fromToCount : Nat) =>
    if pairKey fromId toId ∈ st.1 then st
    else
      let processed := st.1 ++ [pairKey fromId toId]
      let toFromCount := ((mapGet matrix toId).map
        (fun m => (mapGet m fromId).getD 0)).getD 0
      let total := fromToCount + toFromCount
      if total < 3 then (processed, st.2)
      else
        let r : Rat := mkRat fromToCount total
        if mkRat 4 5 ≤ r then
          let fi := (mapGet info fromId).getD ⟨"", ""⟩
          let ti := (mapGet info toId).getD ⟨"", ""⟩
          (processed, st.2 ++
            [⟨fromId, fi.name, toId, ti.name, fromToCount, toFromCount,
              round2Of fromToCount total⟩])
        else if r ≤ mkRat 1 5 then
          let fi := (mapGet info fromId).getD ⟨"", ""⟩
          let ti := (mapGet info toId).getD ⟨"", ""⟩
          (processed, st.2 ++
            [⟨toId, ti.name, fromId, fi.name, toFromCount, fromToCount,
              round2Of toFromCount total⟩])
        else (processed, st.2)
  let res := matrix.foldl
    (fun st e => e.2.foldl (fun st e2 => step st e.1 e2.1 e2.2) st) ([], [])
  List.insertionSort (fun a b => b.fromToCount ≤ a.fromToCount) res.2

/-- Two-way detection: each unordered pair once; at least 5 total
interactions, both directions nonzero, and a balance min/max of at
least 0.3. -/
def detectTwoWay (matrix : List (Nat × List (Nat × Nat)))
    (info : List (Nat × MemberBrief)) : List TwoWayItem :=
  let step := fun (st : List (Nat × Nat) × List TwoWayItem)
      (fromId : Nat) (toId : Nat) (fromToCount : Nat) =>
    if pairKey fromId toId ∈ st.1 then st
    else
      let processed := st.1 ++ [pairKey fromId toId]
      let toFromCount := ((mapGet matrix toId).map
        (fun m => (mapGet m fromId).getD 0)).getD 0
      let total := fromToCount + toFromCount
      if total < 5 then (processed, st.2)
      else if toFromCount = 0 ∨ fromToCount = 0 then (processed, st.2)
      else
        let r : Rat := mkRat (min fromToCount toFromCount) (max fromToCount toFromCount)
        if mkRat 3 10 ≤ r then
          let fi := (mapGet info fromId).getD ⟨"", ""⟩
          let ti := (mapGet info toId).getD ⟨"", ""⟩
          (processed, st.2 ++
            [⟨fromId, fi.name, toId, ti.name, fromToCount, toFromCount, total,
              round2Of (min fromToCount toFromCount) (max fromToCount toFromCount)⟩])
        else (processed, st.2)
  let res := matrix.foldl
    (fun st e => e.2.foldl (fun st e2 => step st e.1 e2.1 e2.2) st) ([], [])
  List.insertionSort (fun a b => b.total ≤ a.total) res.2

def buildMentionRank (countMap : List (Nat × Nat)) (total : Nat)
    (info : List (Nat × MemberBrief)) : List RankItem :=
  List.insertionSort (fun (a b : RankItem) => b.count ≤ a.count)
    (countMap.map (fun e =>
      let i := (mapGet info e.1).getD ⟨"", ""⟩
      ⟨e.1, i.platformId, i.name, e.2, roundPctOf e.2 total⟩))

structure MentionEdge where
  fromMemberId : Nat
  fromName : String
  toMemberId : Nat
  toName : String
  count : Nat
deriving DecidableEq, Repr

structure MemberMentionDetail where
  memberId : Nat
  name : String
  topMentioned : List MentionEdge
  topMentioners : List MentionEdge
deriving DecidableEq, Repr

/-- Per-member top-5 mention breakdown in both directions; members with no
mention data are skipped. -/
def buildMemberDetails (members : List MemberRow)
    (matrix : List (Nat × List (Nat × Nat)))
    (info : List (Nat × MemberBrief)) : List MemberMentionDetail :=
  members.foldl (fun details member =>
    let memberId := member.id
    let i := (mapGet info memberId).getD ⟨"", ""⟩
    let topMentionedByThis :=
      match mapGet matrix memberId with
      | some toMap =>
        List.insertionSort (fun (a b : MentionEdge) => b.count ≤ a.count)
          (toMap.map (fun e =>
            let ti := (mapGet info e.1).getD ⟨"", ""⟩
            ⟨memberId, i.name, e.1, ti.name, e.2⟩))
      | none => []
    let topMentionersOfThis :=
      List.insertionSort (fun (a b : MentionEdge) => b.count ≤ a.count)
        (matrix.foldl (fun items e =>
          match mapGet e.2 memberId with
          | some c =>
            if c ≠ 0 then
              let fi := (mapGet info e.1).getD ⟨"", ""⟩
              items ++ [⟨e.1, fi.name, memberId, i.name, c⟩]
            else items
          | none => items) [])
    if topMentionedByThis ≠ [] ∨ topMentionersOfThis ≠ [] then
      details ++ [⟨memberId, i.name, topMentionedByThis.take 5, topMentionersOfThis.take 5⟩]
    else details) []

structure MentionResult where
  topMentioners : List RankItem
  topMentioned : List RankItem
  oneWay : List OneWayItem
  twoWay : List TwoWayItem
  totalMentions : Nat
  memberDetails : List MemberMentionDetail
deriving DecidableEq, Repr

def emptyMentionResult : MentionResult := ⟨[], [], [], [], 0, []⟩

/-- The extra WHERE conditions of the mention SELECT: non-system sender,
type 0, content not null and containing an at sign (LIKE). -/
def mentionCond (db : SessionDb) (m : MessageRow) : Bool :=
  match findMember db.members m.senderId with
  | some mem =>
    mem.name != systemName && m.msgType == 0 &&
      (match m.content with
       | some c => c.toList.contains '@'
       | none => false)
  | none => false

/-- Name lookup built from the current names (last write wins) and the
historical names (first write wins) of non-system members. -/
def buildNameToMemberId (members : List MemberRow) (history : List HistoryRow) :
    List (String × Nat) :=
  members.foldl (fun l m =>
    let l := mapSet l m.name m.id
    (history.filter (fun h => h.memberId == m.id)).foldl
      (fun l h => if mapHas l h.name then l else mapSet l h.name m.id) l) []

def getMentionAnalysis (dbOpt : Option SessionDb) (filter : Option TimeFilter) :
    MentionResult :=
  match dbOpt with
  | none => emptyMentionResult
  | some db =>
    let members := db.members.filter (fun m => m.name != systemName)
    if members.isEmpty then emptyMentionResult
    else
      let info := members.foldl
        (fun l m => mapSet l m.id (⟨m.platformId, m.name⟩ : MemberBrief)) []
      let nameToMemberId := buildNameToMemberId members db.history
      let msgs := fetchMessages db filter (mentionCond db)
      let acc := msgs.foldl (fun acc m =>
        mentionMsgStep nameToMemberId acc m.senderId (m.content.getD "")) mentionInit
      if acc.totalMentions = 0 then emptyMentionResult
      else
        { topMentioners := buildMentionRank acc.mentionerCount acc.totalMentions info
          topMentioned := buildMentionRank acc.mentionedCount acc.totalMentions info
          oneWay := detectOneWay acc.matrix info
          twoWay := detectTwoWay acc.matrix info
          totalMentions := acc.totalMentions
          memberDetails := buildMemberDetails members acc.matrix info }

/-! ## Database connection (dbCore.ts openDatabase) and basic queries

openDatabase returns null when no store file exists for the session id;
the read-only connection cache does not change which store is read, so it
is not modelled. -/

def openDatabase (stores : List (String × SessionDb)) (sessionId : String) :
    Option SessionDb :=
  mapGet stores sessionId

/-- getTimeRange (basic.ts): null on a missing store, and also null when
the message table is empty; otherwise MIN(ts), MAX(ts). -/
def getTimeRange (dbOpt : Option SessionDb) : Option (Int × Int) :=
  match dbOpt with
  | none => none
  | some db =>
    match (db.messages.map MessageRow.ts).min?, (db.messages.map MessageRow.ts).max? with
    | some mn, some mx => some (mn, mx)
    | _, _ => none

structure ActivityItem where
  memberId : Nat
  platformId : String
  name : String
  messageCount : Nat
  percentage : Rat
deriving DecidableEq, Repr

/-- getMemberActivity (basic.ts): per non-system member, the count of their
messages in the window (members with zero are dropped by HAVING), with the
share of the total, ranked by count. -/
def getMemberActivity (dbOpt : Option SessionDb) (filter : Option TimeFilter) :
    List ActivityItem :=
  match dbOpt with
  | none => []
  | some db =>
    let totalMessages := (fetchMessages db filter (fun m =>
      match findMember db.members m.senderId with
      | some mem => mem.name != systemName
      | none => false)).length
    let rows := db.members.foldl (fun rows m =>
      if m.name != systemName then
        let messageCount :=
          (fetchMessages db filter (fun msg => msg.senderId == m.id)).length
        if messageCount > 0 then
          rows ++ [(⟨m.id, m.platformId, m.name, messageCount,
            if totalMessages > 0 then roundPctOf messageCount totalMessages
            else 0⟩ : ActivityItem)]
        else rows
      else rows) []
    List.insertionSort (fun (a b : ActivityItem) => b.messageCount ≤ a.messageCount) rows

/-! ## Diving (inactivity) analysis (activity.ts getDivingAnalysis) -/

/-- A row of the diving SELECT: per non-system member with at least one
message in the window, the MAX message timestamp, ordered ascending. -/
structure DivingBaseRow where
  member_id : Nat
  platform_id : String
  name : String
  last_ts : Int
deriving DecidableEq, Repr

def divingBase (db : SessionDb) (filter : Option TimeFilter) : List DivingBaseRow :=
  let rows := db.members.foldl (fun rows m =>
    if m.name != systemName then
      match ((fetchMessages db filter (fun msg => msg.senderId == m.id)).map
          MessageRow.ts).max? with
      | some mx => rows ++ [(⟨m.id, m.platformId, m.name, mx⟩ : DivingBaseRow)]
      | none => rows
    else rows) []
  List.insertionSort (fun (a b : DivingBaseRow) => a.last_ts ≤ b.last_ts) rows

structure DivingItem where
  memberId : Nat
  platformId : String
  name : String
  lastMessageTs : Int
  daysSinceLastMessage : Int
deriving DecidableEq, Repr

structure DivingResult where
  rank : List DivingItem
deriving DecidableEq, Repr

def emptyDivingResult : DivingResult := ⟨[]⟩

/-- getDivingAnalysis: the source reads the wall clock once, as
now = Math.floor(Date.now() / 1000), here made an explicit argument; each
row is mapped to days since last activity, Math.floor((now - last) / 86400). -/
def getDivingAnalysis (dbOpt : Option SessionDb) (filter : Option TimeFilter)
    (now : Int) : DivingResult :=
  match dbOpt with
  | none => emptyDivingResult
  | some db =>
    ⟨(divingBase db filter).map (fun item =>
      ⟨item.member_id, item.platform_id, item.name, item.last_ts,
        Int.fdiv (now - item.last_ts) 86400⟩)⟩

/-- Everything a diving entry carries except the wall-clock-relative
daysSinceLastMessage field. -/
def stripDays (i : DivingItem) : Nat × String × String × Int :=
  (i.memberId, i.platformId, i.name, i.lastMessageTs)

/-! ## The parsing contract and the ChatLab parser (chatlab.ts)

The parser is an asynchronous generator of typed events; its effects other
than the yielded events (byte counters, progress callbacks) do not change
which events are yielded, so an event list is the faithful denotation of
one successful run. The head-window JSON parsing of meta and members is
abstracted into the resolved fields of the file value. -/

structure ParsedMeta where
  name : String
  platform : String
  chatType : String
deriving DecidableEq, Repr

structure ParsedMember where
  platformId : String
  name : String
  nickname : Option String
deriving DecidableEq, Repr

/-- A parsed message; a missing/NaN timestamp or missing type field is
modelled as none. -/
structure ParsedMessage where
  senderPlatformId : String
  senderName : String
  timestamp : Option Int
  msgType : Option Int
  content : Option String
deriving DecidableEq, Repr

inductive ParseEvent where
  | progress (stage : String)
  | meta (m : ParsedMeta)
  | members (ms : List ParsedMember)
  | messages (batch : List ParsedMessage)
  | done (messageCount : Nat) (memberCount : Nat)
deriving DecidableEq, Repr

/-- One message record of a .chatlab.json file. -/
structure ChatLabMsg where
  sender : String
  name : String
  timestamp : Option Int
  msgType : Option Int
  content : Option String
deriving DecidableEq, Repr

structure ChatLabMember where
  platformId : String
  name : String
deriving DecidableEq, Repr

/-- A ChatLab export file: the resolved meta fields (head meta object with
filename fallback), the members array when one was found in the head
window (empty otherwise), and the streamed messages array. -/
structure ChatLabFile where
  metaName : String
  metaPlatform : String
  metaType : String
  headMembers : List ChatLabMember
  messages : List ChatLabMsg
deriving DecidableEq, Repr

/-- The batch collector of the parser: messages are appended to the
current batch, which is flushed whenever it reaches batchSize; a nonempty
remainder is flushed at the end (equal to slice(i, i + batchSize) stepping
by batchSize, for a positive batch size). -/
def chunkedGo {α : Type} (batchSize : Nat) : List α → List α → List (List α)
  | [], cur => if cur.isEmpty then [] else [cur]
  | x :: xs, cur =>
    if (cur ++ [x]).length = batchSize then (cur ++ [x]) :: chunkedGo batchSize xs []
    else chunkedGo batchSize xs (cur ++ [x])

def chunked {α : Type} (batchSize : Nat) (l : List α) : List (List α) :=
  chunkedGo batchSize l []

/-- Member collection from message senders, used when the head window
yielded no members array: a Map keyed by sender, last write wins. -/
def collectMembers (msgs : List ChatLabMsg) : List ParsedMember :=
  (msgs.foldl (fun m msg =>
    mapSet m msg.sender (⟨msg.sender, msg.name, none⟩ : ParsedMember)) []).map Prod.snd

/-- The event sequence of one successful parseChatLab run: an initial
progress event, the single meta event, at most one members event, the
message batches, a final progress event, and the terminal done event
carrying the final counts. -/
def parseChatLab (file : ChatLabFile) (batchSize : Nat) : List ParseEvent :=
  let members := file.headMembers.map
    (fun m => (⟨m.platformId, m.name, none⟩ : ParsedMember))
  let collected := collectMembers file.messages
  let parsedMsgs := file.messages.map (fun m =>
    (⟨m.sender, m.name, m.timestamp, m.msgType, m.content⟩ : ParsedMessage))
  [ParseEvent.progress "parsing",
   ParseEvent.meta ⟨file.metaName, file.metaPlatform, file.metaType⟩]
  ++ (if members.length > 0 then [ParseEvent.members members]
      else if collected.length > 0 then [ParseEvent.members collected]
      else [])
  ++ (chunked batchSize parsedMsgs).map ParseEvent.messages
  ++ [ParseEvent.progress "done",
      ParseEvent.done file.messages.length
        (if members.length > 0 then members.length else collected.length)]

/-- The counts carried by the terminal done event, when one exists. -/
def doneCounts (events : List ParseEvent) : Option (Nat × Nat) :=
  events.foldr (fun ev acc =>
    match ev with
    | .done mc nc => some (mc, nc)
    | _ => acc) none

/-! ## The streaming importer (streamImport.ts)

The SQLite store is modelled by its three data tables with explicit
AUTOINCREMENT counters; prepared statements become list operations. The
bounded-transaction commits and WAL checkpoints do not change the final
table contents of a successful import and are treated in the file-system
model below. -/

structure Tracker where
  currentName : String
  lastSeenTs : Int
  history : List (String × Int)
deriving DecidableEq, Repr

structure ImportState where
  db : SessionDb
  nextMemberId : Nat
  nextMessageId : Nat
  memberIdMap : List (String × Nat)
  memberNicknameMap : List (String × String)
  nicknameTracker : List (String × Tracker)
deriving DecidableEq, Repr

def importInit : ImportState := ⟨⟨[], [], []⟩, 1, 1, [], [], []⟩

/-- INSERT OR IGNORE INTO member: a second row with an existing
platform_id is ignored. -/
def insertMemberOrIgnore (st : ImportState) (platformId name : String)
    (nickname : Option String) : ImportState :=
  if (st.db.members.find? (fun m => m.platformId == platformId)).isSome then st
  else { st with
    db := { st.db with
      members := st.db.members ++ [⟨st.nextMemberId, platformId, name, nickname⟩] }
    nextMemberId := st.nextMemberId + 1 }

/-- SELECT id FROM member WHERE platform_id = ?. -/
def getMemberRowId (st : ImportState) (platformId : String) : Option Nat :=
  (st.db.members.find? (fun m => m.platformId == platformId)).map MemberRow.id

/-- The insert-then-cache pattern used for members and for message
senders: INSERT OR IGNORE the member row, then look up the row id and
cache it in the in-memory platformId map (the repeated insert expression
stands for one intermediate state). -/
def ensureMember (st : ImportState) (platformId name : String)
    (nickname : Option String) : ImportState :=
  match getMemberRowId (insertMemberOrIgnore st platformId name nickname) platformId with
  | some rid =>
    { insertMemberOrIgnore st platformId name nickname with
      memberIdMap :=
        mapSet (insertMemberOrIgnore st platformId name nickname).memberIdMap
          platformId rid }
  | none => insertMemberOrIgnore st platformId name nickname

/-- The nickname actually stored by the importer: member.nickname or null
(the empty string is falsy). -/
def nickOf (member : ParsedMember) : Option String :=
  match member.nickname with
  | some n => if n = "" then none else some n
  | none => none

/-- msg.senderName or msg.senderPlatformId (JavaScript falsy fallback). -/
def senderNameOf (msg : ParsedMessage) : String :=
  if msg.senderName = "" then msg.senderPlatformId else msg.senderName

/-- The real-nickname test: the sender name differs from the platform id
and from the known platform-native nickname, if any. -/
def isRealFor (nickMap : List (String × String)) (msg : ParsedMessage) : Bool :=
  senderNameOf msg != msg.senderPlatformId &&
  (match mapGet nickMap msg.senderPlatformId with
   | some n => senderNameOf msg != n
   | none => true)

/-- The onMembers handler: insert-or-ignore each member, cache its row id,
and remember a non-empty platform-native nickname for the real-nickname
filter. -/
def handleMembers (st : ImportState) (ms : List ParsedMember) : ImportState :=
  ms.foldl (fun st member =>
    let st2 := ensureMember st member.platformId member.name (nickOf member)
    match nickOf member with
    | some n =>
      { st2 with memberNicknameMap := mapSet st2.memberNicknameMap member.platformId n }
    | none => st2) st

/-- The data-validation gate at the top of the message loop: skip messages
with a falsy sender id or sender name, an undefined/null/NaN timestamp, or
an undefined/null type. -/
def isValidMsg (msg : ParsedMessage) : Bool :=
  msg.senderPlatformId != "" && msg.senderName != "" &&
  msg.timestamp.isSome && msg.msgType.isSome

/-- The in-memory nickname tracking for one inserted message: a first
accepted real name seeds the tracker, a changed accepted real name appends
to the history, anything else only refreshes the last-seen timestamp. -/
def trackNickname (st : ImportState) (msg : ParsedMessage) (ts : Int) : ImportState :=
  match mapGet st.nicknameTracker msg.senderPlatformId with
  | none =>
    if isRealFor st.memberNicknameMap msg then
      { st with
        nicknameTracker :=
          mapSet st.nicknameTracker msg.senderPlatformId
            ⟨senderNameOf msg, ts, [(senderNameOf msg, ts)]⟩ }
    else st
  | some tracker =>
    if tracker.currentName ≠ senderNameOf msg ∧
        isRealFor st.memberNicknameMap msg = true then
      { st with
        nicknameTracker :=
          mapSet st.nicknameTracker msg.senderPlatformId
            ⟨senderNameOf msg, ts, tracker.history ++ [(senderNameOf msg, ts)]⟩ }
    else
      { st with
        nicknameTracker :=
          mapSet st.nicknameTracker msg.senderPlatformId
            { tracker with lastSeenTs := ts } }

/-- Processing one message of a batch: validation, member auto-insertion,
message insertion, and in-memory nickname tracking. -/
def handleMessageCore (st : ImportState) (msg : ParsedMessage) : ImportState :=
  match mapGet st.memberIdMap msg.senderPlatformId with
  | none => st
  | some senderId =>
    match msg.timestamp, msg.msgType with
    | some ts, some ty =>
      trackNickname
        { st with
          db := { st.db with
            messages :=
              st.db.messages ++ [⟨st.nextMessageId, senderId, ts, ty, msg.content⟩] }
          nextMessageId := st.nextMessageId + 1 }
        msg ts
    | _, _ => st

def handleMessage (st : ImportState) (msg : ParsedMessage) : ImportState :=
  if !isValidMsg msg then st
  else
    handleMessageCore
      (if mapHas st.memberIdMap msg.senderPlatformId then st
       else ensureMember st msg.senderPlatformId (senderNameOf msg) none)
      msg

def handleEvent (st : ImportState) (ev : ParseEvent) : ImportState :=
  match ev with
  | .progress _ => st
  | .meta _ => st
  | .members ms => handleMembers st ms
  | .messages batch => batch.foldl handleMessage st
  | .done _ _ => st

/-- The import loop over the event stream of the parser. -/
def runImport (events : List ParseEvent) : ImportState :=
  events.foldl handleEvent importInit

/-- The per-name first/last occurrence map built over the history of a tracker:
first occurrence keeps the start timestamp, later ones update lastTs. -/
def buildUniqueNames (history : List (String × Int)) : List (String × (Int × Int)) :=
  history.foldl (fun u h =>
    match mapGet u h.1 with
    | none => mapSet u h.1 (h.2, h.2)
    | some e => mapSet u h.1 (e.1, h.2)) []

/-- The history-row write loop: the end timestamp of each entry is the
start timestamp of the next entry; the end of the last entry is null. -/
def buildHistRows (senderId : Nat) : List (String × (Int × Int)) → List HistoryRow
  | [] => []
  | [e] => [⟨senderId, e.1, e.2.1, none⟩]
  | e :: next :: rest =>
    ⟨senderId, e.1, e.2.1, some next.2.1⟩ :: buildHistRows senderId (next :: rest)

/-- UPDATE member SET name = ? WHERE platform_id = ?. -/
def updateMemberName (members : List MemberRow) (name platformId : String) :
    List MemberRow :=
  members.map (fun m =>
    if m.platformId == platformId then { m with name := name } else m)

/-- The sort key of the history write: ascending first-use timestamp
(the comparator a.startTs - b.startTs over the unique-name entries). -/
def nameFirstUseLe (a b : String × (Int × Int)) : Prop := a.2.1 ≤ b.2.1

instance : DecidableRel nameFirstUseLe := fun a b =>
  inferInstanceAs (Decidable (a.2.1 ≤ b.2.1))

instance : IsTotal (String × (Int × Int)) nameFirstUseLe :=
  ⟨fun a b => le_total a.2.1 b.2.1⟩

instance : IsTrans (String × (Int × Int)) nameFirstUseLe :=
  ⟨fun _ _ _ h1 h2 => le_trans h1 h2⟩

/-- Materialization of one tracked member: skip invalid platform ids,
deduplicate names, drop the raw platform id, write history only when more
than one distinct real name remains, and always update the current
name of the member. -/
def finalizeTracker (st : ImportState) (platformId : String) (tracker : Tracker) :
    ImportState :=
  if platformId = "" ∨ platformId = "0" ∨ platformId = "undefined" then st
  else
    match mapGet st.memberIdMap platformId with
    | none => st
    | some senderId =>
      if senderId = 0 then st
      else
        if (mapDelete (buildUniqueNames tracker.history) platformId).length ≤ 1 then
          { st with db := { st.db with
              members := updateMemberName st.db.members tracker.currentName platformId } }
        else
          { st with db := { st.db with
              history := st.db.history ++ buildHistRows senderId
                (List.insertionSort nameFirstUseLe
                  (mapDelete (buildUniqueNames tracker.history) platformId))
              members := updateMemberName st.db.members tracker.currentName platformId } }

/-- The nickname-history materialization transaction after the bulk load. -/
def finalizeNicknames (st : ImportState) : ImportState :=
  st.nicknameTracker.foldl (fun st e => finalizeTracker st e.1 e.2) st

/-- A full ChatLab-format import: drive the parser and the import loop,
then materialize nickname history (index creation and the final checkpoint
do not change table contents). -/
def streamImport (file : ChatLabFile) (batchSize : Nat) : ImportState :=
  finalizeNicknames (runImport (parseChatLab file batchSize))

/-! ## Session lookup counts (basic.ts getSession) -/

/-- The message count reported by getSession: messages joined to a
non-system member. -/
def sessionMessageCount (db : SessionDb) : Nat :=
  (db.messages.filter (fun m =>
    match findMember db.members m.senderId with
    | some mem => mem.name != systemName
    | none => false)).length

/-- The member count reported by getSession: non-system member rows. -/
def sessionMemberCount (db : SessionDb) : Nat :=
  (db.members.filter (fun m => m.name != systemName)).length

/-! ## Import atomicity (streamImport.ts control flow over the file system)

The effectful skeleton of streamImport: format detection and optional
preprocessing happen before the store file is created. The store file
comes into existence at the new-Database call inside
createDatabaseWithoutIndexes, but the guarded try block only begins after
the table creation, the statement prepares and the initial BEGIN: an
exception in that setup window propagates to the caller as a rejection
and leaves the partial store file and the preprocessor temp file on disk.
Only exceptions raised inside the try block reach the catch/finally,
which rolls back an open transaction, unlinks the partial store file,
returns a typed failure and cleans up the temp file. The meta row is
inserted inside the try block, and getAllSessions lists only store files
whose meta row exists, skipping unreadable or meta-less stores. -/

/-- One store file as the listing sees it: its session id and whether its
meta row was ever written (the onMeta insert runs inside the try block). -/
structure StoreFile where
  sessionId : String
  hasMeta : Bool
deriving DecidableEq, Repr

/-- The worker-visible file system: the store files (one per session) and
the preprocessor temp files. -/
structure WorkerFs where
  stores : List StoreFile
  temps : List String
deriving DecidableEq, Repr

structure StreamImportResult where
  success : Bool
  sessionId : Option String
  error : Option String
deriving DecidableEq, Repr

/-- Where a given run can fail: unrecognized format and preprocessor
failure happen before store creation and return typed failures;
setupFailure is an exception between store-file creation and the try
block (the WAL/cache pragmas, the CREATE TABLE exec, the statement
prepares or the initial BEGIN), which propagates uncaught; bodyFailure is
any exception raised inside the try block, handled by catch/finally. -/
structure ImportScenario where
  formatRecognized : Bool
  needsPre : Bool
  preFails : Bool
  setupFailure : Option String
  inTransactionAtFailure : Bool
  bodyFailure : Option String
deriving DecidableEq, Repr

/-- How one run ends: with a returned StreamImportResult, or with a
propagated (uncaught) exception. -/
inductive RunResult where
  | returned (r : StreamImportResult)
  | raised (err : String)
deriving DecidableEq, Repr

/-- The outcome of one run: the file system afterwards, how the run
ended, and whether a rollback ran. -/
structure ImportRunOutcome where
  fs : WorkerFs
  result : RunResult
  rolledBack : Bool
deriving DecidableEq, Repr

/-- getAllSessions: the session listing scans the store files and lists
only those whose meta row exists. -/
def getAllSessions (fs : WorkerFs) : List String :=
  (fs.stores.filter (fun s => s.hasMeta)).map StoreFile.sessionId

/-- The control-flow skeleton of streamImport over the file system. -/
def streamImportRun (fs : WorkerFs) (sessionId tempPath : String)
    (sc : ImportScenario) : ImportRunOutcome :=
  if !sc.formatRecognized then
    ⟨fs, RunResult.returned ⟨false, none, some "无法识别文件格式"⟩, false⟩
  else if sc.needsPre && sc.preFails then
    ⟨fs, RunResult.returned ⟨false, none, some "预处理失败"⟩, false⟩
  else
    match sc.setupFailure with
    | some err =>
      ⟨⟨fs.stores ++ [(⟨sessionId, false⟩ : StoreFile)],
        fs.temps ++ (if sc.needsPre = true then [tempPath] else [])⟩,
       RunResult.raised err, false⟩
    | none =>
      match sc.bodyFailure with
      | some err =>
        ⟨⟨(fs.stores ++ [(⟨sessionId, false⟩ : StoreFile)]).filter
            (fun s => s.sessionId != sessionId),
          if sc.needsPre = true then
            (fs.temps ++ [tempPath]).erase tempPath
          else fs.temps⟩,
         RunResult.returned ⟨false, none, some err⟩, sc.inTransactionAtFailure⟩
      | none =>
        ⟨⟨fs.stores ++ [(⟨sessionId, true⟩ : StoreFile)],
          if sc.needsPre = true then
            (fs.temps ++ [tempPath]).erase tempPath
          else fs.temps⟩,
         RunResult.returned ⟨true, some sessionId, none⟩, false⟩

/-! ## Concrete inputs for the scenario claims -/

/-- The C6 scenario store: three distinct senders, time-ordered text
messages A hi, B hi, C hi, A bye. -/
def repeatScenarioDb : SessionDb :=
  { members := [⟨1, "pA", "A", none⟩, ⟨2, "pB", "B", none⟩, ⟨3, "pC", "C", none⟩]
    messages := [⟨1, 1, 100, 0, some "hi"⟩, ⟨2, 2, 110, 0, some "hi"⟩,
                 ⟨3, 3, 120, 0, some "hi"⟩, ⟨4, 1, 130, 0, some "bye"⟩]
    history := [] }

/-- The C7 scenario store with a 9-to-1 mention split: member 1 mentions
member 2 nine times, member 2 mentions member 1 once. -/
def mentionScenarioDb91 : SessionDb :=
  { members := [⟨1, "p1", "D", none⟩, ⟨2, "p2", "O", none⟩]
    messages :=
      [⟨1, 1, 100, 0, some "@O"⟩, ⟨2, 1, 101, 0, some "@O"⟩,
       ⟨3, 1, 102, 0, some "@O"⟩, ⟨4, 1, 103, 0, some "@O"⟩,
       ⟨5, 1, 104, 0, some "@O"⟩, ⟨6, 1, 105, 0, some "@O"⟩,
       ⟨7, 1, 106, 0, some "@O"⟩, ⟨8, 1, 107, 0, some "@O"⟩,
       ⟨9, 1, 108, 0, some "@O"⟩, ⟨10, 2, 109, 0, some "@D"⟩]
    history := [] }

/-- The C7 scenario store with a 5-to-4 mention split. -/
def mentionScenarioDb54 : SessionDb :=
  { members := [⟨1, "p1", "D", none⟩, ⟨2, "p2", "O", none⟩]
    messages :=
      [⟨1, 1, 100, 0, some "@O"⟩, ⟨2, 1, 101, 0, some "@O"⟩,
       ⟨3, 1, 102, 0, some "@O"⟩, ⟨4, 1, 103, 0, some "@O"⟩,
       ⟨5, 1, 104, 0, some "@O"⟩, ⟨6, 2, 105, 0, some "@D"⟩,
       ⟨7, 2, 106, 0, some "@D"⟩, ⟨8, 2, 107, 0, some "@D"⟩,
       ⟨9, 2, 108, 0, some "@D"⟩]
    history := [] }

/-- The C5 counterexample store: one member whose last message is at
timestamp 0. -/
def divingScenarioStores : List (String × SessionDb) :=
  [("s1", { members := [⟨1, "p1", "M", none⟩]
            messages := [⟨1, 1, 0, 0, some "hi"⟩]
            history := [] })]

/-- The C2 counterexample file: the head members array names only sender
A, but a message arrives from sender B. -/
def mismatchFile : ChatLabFile :=
  { metaName := "g"
    metaPlatform := "qq"
    metaType := "group"
    headMembers := [⟨"A", "Alice"⟩]
    messages := [⟨"B", "Bob", some 1, some 0, some "hi"⟩] }

/-- A well-formed small ChatLab file used as a witness input. -/
def okFile : ChatLabFile :=
  { metaName := "g"
    metaPlatform := "qq"
    metaType := "group"
    headMembers := [⟨"A", "Alice"⟩, ⟨"B", "Bob"⟩]
    messages := [⟨"A", "Alice", some 1, some 0, some "hi"⟩,
                 ⟨"B", "Bob", some 2, some 0, some "yo"⟩,
                 ⟨"A", "Ann", some 3, some 0, some "hm"⟩,
                 ⟨"A", "Amy", some 4, some 0, some "ok"⟩] }

/-! ## Event classification and parser locals, used in the statements -/

def isMetaEv : ParseEvent → Bool
  | .meta _ => true
  | _ => false

def isMessagesEv : ParseEvent → Bool
  | .messages _ => true
  | _ => false

def isDoneEv : ParseEvent → Bool
  | .done _ _ => true
  | _ => false

/-- The members event payload of a parseChatLab run: the head members
array when present, otherwise the members collected from message senders. -/
def parsedMembersOf (file : ChatLabFile) : List ParsedMember :=
  if file.headMembers.length > 0 then
    file.headMembers.map (fun m => (⟨m.platformId, m.name, none⟩ : ParsedMember))
  else collectMembers file.messages

def parsedMessagesOf (file : ChatLabFile) : List ParsedMessage :=
  file.messages.map (fun m =>
    (⟨m.sender, m.name, m.timestamp, m.msgType, m.content⟩ : ParsedMessage))

/-- The event sequence after the initial progress and meta events: at most
one members event, the message batches, the final progress event and the
terminal done event. -/
def parseTail (file : ChatLabFile) (bs : Nat) : List ParseEvent :=
  (if (parsedMembersOf file).length > 0 then
    [ParseEvent.members (parsedMembersOf file)]
   else [])
  ++ (chunked bs (parsedMessagesOf file)).map ParseEvent.messages
  ++ [ParseEvent.progress "done",
      ParseEvent.done file.messages.length (parsedMembersOf file).length]

/-! ## Real-name observations (the nickname filter of streamImport.ts)

A replay of the nickname bookkeeping of the importer that only records, per
platform id, the distinct sender names accepted by the real-nickname
filter (different from the platform id and from the platform-native
nickname known at that point). -/

/-- The nickname-map update for one members entry, shared between the
importer (handleMembers) and the observation replay. -/
def nickMapStep (nm : List (String × String)) (member : ParsedMember) :
    List (String × String) :=
  match nickOf member with
  | some n => mapSet nm member.platformId n
  | none => nm

/-- One message of the observation replay: record the sender name when the
message passes validation, belongs to the given platform id, and passes
the real-nickname filter, first occurrence only. -/
def obsMsgStep (pid : String) (st : List (String × String) × List String)
    (msg : ParsedMessage) : List (String × String) × List String :=
  if isValidMsg msg ∧ msg.senderPlatformId = pid ∧ isRealFor st.1 msg then
    (st.1, if senderNameOf msg ∈ st.2 then st.2 else st.2 ++ [senderNameOf msg])
  else st

/-- One event of the observation replay: members events update the
nickname map exactly as handleMembers does; message events record the
accepted real names of the given platform id, first occurrence only. -/
def observeEvent (pid : String) (st : List (String × String) × List String)
    (ev : ParseEvent) : List (String × String) × List String :=
  match ev with
  | .members ms => (ms.foldl nickMapStep st.1, st.2)
  | .messages batch => batch.foldl (obsMsgStep pid) st
  | _ => st

/-- The distinct real names ever observed for one platform id over an
event stream. -/
def observedRealNames (events : List ParseEvent) (pid : String) : List String :=
  (events.foldl (observeEvent pid) ([], [])).2

/-- One complete import over an event stream: the event loop followed by
the nickname-history materialization. -/
def importRun (events : List ParseEvent) : ImportState :=
  finalizeNicknames (runImport events)

/-- Well-formedness of an import state: the row-id cache agrees with the
member table, member ids are bounded by the next id and pairwise distinct,
and every message references an existing member row. -/
def ImportWf (st : ImportState) : Prop :=
  (∀ pid, mapGet st.memberIdMap pid = getMemberRowId st pid) ∧
  (∀ m ∈ st.db.members, m.id < st.nextMemberId) ∧
  (st.db.members.map MemberRow.id).Nodup ∧
  (∀ row ∈ st.db.messages, ∃ mem, mem ∈ st.db.members ∧ mem.id = row.senderId)

/-- No member row and no tracked current name carries the reserved system
display name. -/
def NamesOk (st : ImportState) : Prop :=
  (∀ m ∈ st.db.members, m.name ≠ systemName) ∧
  (∀ e ∈ st.nicknameTracker, (e : String × Tracker).2.currentName ≠ systemName)

/-- Adjacency of two history rows: gapless (the end of the first is the
start of the second) and ordered by start timestamp. -/
def histAdjacent (a b : HistoryRow) : Prop :=
  a.endTs = some b.startTs ∧ a.startTs ≤ b.startTs

/-- The history rows of one member, as the session store returns them. -/
def historyOf (st : ImportState) (mid : Nat) : List HistoryRow :=
  st.db.history.filter (fun r => r.memberId == mid)

/-- The member rows created by a run of fresh inserts: consecutive row ids
starting at the given next id, one row per parsed member in order. -/
def buildMemberRows : Nat → List ParsedMember → List MemberRow
  | _, [] => []
  | nid, m :: rest =>
    ⟨nid, m.platformId, m.name, nickOf m⟩ :: buildMemberRows (nid + 1) rest

/-- The simulation invariant between the import state and the observation
replay for one platform id: the nickname maps agree, a missing tracker
entry means no observed real name, and a present tracker entry carries
exactly the observed distinct real names with the current name among
them. -/
def ObsInv (pid : String) (st : ImportState)
    (ob : List (String × String) × List String) : Prop :=
  st.memberNicknameMap = ob.1 ∧
  (match mapGet st.nicknameTracker pid with
   | none => ob.2 = []
   | some tr => (buildUniqueNames tr.history).map Prod.fst = ob.2 ∧
       tr.currentName ∈ ob.2)

/-! ## Witness inputs for the hypothesis-bearing theorems -/

/-- A scan state with an open chain for content hi whose last entry is
sender 2. -/
def accW : RepeatAcc :=
  ⟨[], [], [], [], [], [], [], some "hi", [⟨1, "hi", 100⟩, ⟨2, "hi", 110⟩], 0, 0, []⟩

/-- A repeated hi from sender 2, the last sender of the chain. -/
def msgW : RMsg := ⟨3, 2, "hi", 120, "p2", "B"⟩

/-- A subsequent repeated hi from sender 1. -/
def msg2W : RMsg := ⟨4, 1, "hi", 130, "p1", "A"⟩

/-- A failing import scenario: recognized format, preprocessing, a clean
setup, and an exception in the try block with an open transaction. -/
def scW : ImportScenario := ⟨true, true, false, none, true, some "disk full"⟩

/-- A setup-window failure: recognized format, preprocessing, and an
exception between store creation and the try block. -/
def scSetupW : ImportScenario := ⟨true, true, false, some "disk full", false, none⟩

def fsW : WorkerFs := ⟨[⟨"chat_1_aa", true⟩], []⟩

/-!
# Theorems
-/

/-- C6: for the time-ordered text-message input A hi, B hi, C hi, A bye
from three distinct senders, getRepeatAnalysis reports exactly one repeat
chain, of length 3, with originator A (count 1), initiator B (count 1),
breaker A (count 1), and hotContents containing hi with maxChainLength 3. -/
theorem repeat_chain_scenario :
    (getRepeatAnalysis (some repeatScenarioDb) none).totalRepeatChains = 1 ∧
    (getRepeatAnalysis (some repeatScenarioDb) none).chainLengthDistribution =
      [⟨3, 1⟩] ∧
    (getRepeatAnalysis (some repeatScenarioDb) none).originators =
      [⟨1, "pA", "A", 1, 100⟩] ∧
    (getRepeatAnalysis (some repeatScenarioDb) none).initiators =
      [⟨2, "pB", "B", 1, 100⟩] ∧
    (getRepeatAnalysis (some repeatScenarioDb) none).breakers =
      [⟨1, "pA", "A", 1, 100⟩] ∧
    (getRepeatAnalysis (some repeatScenarioDb) none).hotContents =
      [⟨"hi", 1, 3, "A", 100⟩] := by
  decide

/-- C7: with 10 total mentions split 9-to-1 between two members (floors
met: 10 at least 3), getMentionAnalysis puts the pair in the one-way list
with the dominant member as the from side at ratio 0.9 and not in the
two-way list; with a 5-to-4 split (9 at least 5, balance 0.8 at least
0.3), the pair lands in the two-way list as balanced and not in the
one-way list. -/
theorem mention_pair_classification :
    (getMentionAnalysis (some mentionScenarioDb91) none).oneWay =
      [⟨1, "D", 2, "O", 9, 1, mkRat 9 10⟩] ∧
    (getMentionAnalysis (some mentionScenarioDb91) none).twoWay = [] ∧
    (getMentionAnalysis (some mentionScenarioDb54) none).oneWay = [] ∧
    (getMentionAnalysis (some mentionScenarioDb54) none).twoWay =
      [⟨1, "D", 2, "O", 5, 4, 9, mkRat 4 5⟩] := by
  decide

/-- C5 counterexample: getDivingAnalysis reads the wall clock, so two
calls with identical arguments at different call times return different
results (daysSinceLastMessage 1 versus 2 on the same store). -/
theorem diving_depends_on_wall_clock :
    getDivingAnalysis (openDatabase divingScenarioStores "s1") none 86400 ≠
    getDivingAnalysis (openDatabase divingScenarioStores "s1") none 172800 := by
  decide

/-- C5 amended: every analytics function is a deterministic function of
the store, the arguments and the wall-clock time of the call;
getDivingAnalysis depends on the call time only through each entry
daysSinceLastMessage field, all other output being identical across call
times. -/
theorem diving_deterministic_up_to_clock (dbOpt : Option SessionDb)
    (filter : Option TimeFilter) (now1 now2 : Int) :
    (getDivingAnalysis dbOpt filter now1).rank.map stripDays =
    (getDivingAnalysis dbOpt filter now2).rank.map stripDays := by
  cases dbOpt with
  | none => rfl
  | some db => simp [getDivingAnalysis, List.map_map, stripDays, Function.comp]

/-- C9 counterexample: getTimeRange called on a session id with no store
file returns null, not an empty/zero-valued structure. -/
theorem time_range_missing_store_is_null :
    getTimeRange (openDatabase [] "missing") = none := rfl

/-- C9 amended: on a missing store no analytics query throws; the
analysis functions return their defined empty result structures, but
getTimeRange returns null, so its callers do branch on absence. -/
theorem missing_store_graceful (stores : List (String × SessionDb))
    (sid : String) (filter : Option TimeFilter) (now : Int)
    (h : openDatabase stores sid = none) :
    getMemberActivity (openDatabase stores sid) filter = [] ∧
    getRepeatAnalysis (openDatabase stores sid) filter = emptyRepeatResult ∧
    getMentionAnalysis (openDatabase stores sid) filter = emptyMentionResult ∧
    getDivingAnalysis (openDatabase stores sid) filter now = emptyDivingResult ∧
    getTimeRange (openDatabase stores sid) = none := by
  rw [h]
  exact ⟨rfl, rfl, rfl, rfl, rfl⟩

/-- C9 witness: the amended theorem applied to an empty store directory. -/
theorem missing_store_graceful_witness :
    getMemberActivity (openDatabase [] "missing") none = [] :=
  (missing_store_graceful [] "missing" none 0 rfl).1

/-- C10: in the repeat scan, a message whose trimmed content equals the
current content but whose sender equals the sender of the last chain entry
neither extends nor closes the chain: the chain, the current content and
all chain statistics are unchanged, and a subsequent equal-content message
from a different sender still extends the chain. -/
theorem repeat_same_sender_neutral (acc : RepeatAcc) (msg msg2 : RMsg)
    (hcur : acc.currentContent = some (jsTrim msg.content))
    (hlast : (acc.repeatChain.getLast?).map ChainEntry.senderId = some msg.senderId)
    (hcontent2 : jsTrim msg2.content = jsTrim msg.content)
    (hsender2 : msg2.senderId ≠ msg.senderId) :
    (repeatStep acc msg).repeatChain = acc.repeatChain ∧
    (repeatStep acc msg).currentContent = acc.currentContent ∧
    (repeatStep acc msg).totalRepeatChains = acc.totalRepeatChains ∧
    (repeatStep acc msg).contentStats = acc.contentStats ∧
    (repeatStep acc msg).originatorCount = acc.originatorCount ∧
    (repeatStep acc msg).initiatorCount = acc.initiatorCount ∧
    (repeatStep acc msg).breakerCount = acc.breakerCount ∧
    (repeatStep acc msg).chainLengthCount = acc.chainLengthCount ∧
    (repeatStep (repeatStep acc msg) msg2).repeatChain =
      acc.repeatChain ++ [⟨msg2.senderId, jsTrim msg2.content, msg2.ts⟩] := by
  have hstep : repeatStep acc msg = { acc with
      memberInfo :=
        if mapHas acc.memberInfo msg.senderId then acc.memberInfo
        else mapSet acc.memberInfo msg.senderId ⟨msg.platformId, msg.name⟩
      memberMessageCount := bumpCount acc.memberMessageCount msg.senderId } := by
    unfold repeatStep
    simp only [hcur, hlast, ne_eq, Option.some.injEq, not_true_eq_false,
      if_true, if_false, ite_true, ite_false, decide_True, decide_False]
  refine ⟨by rw [hstep], by rw [hstep], by rw [hstep], by rw [hstep],
    by rw [hstep], by rw [hstep], by rw [hstep], by rw [hstep], ?_⟩
  rw [hstep]
  unfold repeatStep
  have hne : ¬ msg.senderId = msg2.senderId := fun h => hsender2 h.symm
  simp only [hcur, hcontent2, hlast, Option.some.injEq, ne_eq, hne,
    not_false_eq_true, not_true_eq_false, if_true, if_false, ite_true, ite_false,
    decide_True, decide_False]

/-- C10 witness: the theorem applied to a concrete open chain for hi with
last sender 2, a repeated hi from sender 2, then a repeated hi from
sender 1. -/
theorem repeat_same_sender_neutral_witness :
    (repeatStep accW msgW).repeatChain = accW.repeatChain :=
  (repeat_same_sender_neutral accW msgW msg2W (by decide) (by decide)
    (by decide) (by decide)).1

/-- C4: the time filter built by buildTimeFilter is inclusive on both
ends: every row fetched under a [lo, hi] filter, for any analytics
function (any extra WHERE predicate), has lo at most ts at most hi, and
this carries to the repeat-analysis fetch; a call with the filter omitted
returns exactly the rows of a call with an unconstrained filter, and of a
call whose bounds enclose all message timestamps. -/
theorem time_filter_correct (db : SessionDb) (extra : MessageRow → Bool)
    (lo hi : Int) :
    (∀ m ∈ fetchMessages db (some ⟨some lo, some hi⟩) extra,
      lo ≤ m.ts ∧ m.ts ≤ hi) ∧
    fetchMessages db none extra = fetchMessages db (some ⟨none, none⟩) extra ∧
    repeatFetch db none = repeatFetch db (some ⟨none, none⟩) ∧
    (∀ r ∈ repeatFetch db (some ⟨some lo, some hi⟩), lo ≤ r.ts ∧ r.ts ≤ hi) ∧
    ((∀ m ∈ db.messages, lo ≤ m.ts ∧ m.ts ≤ hi) →
      fetchMessages db (some ⟨some lo, some hi⟩) extra =
        fetchMessages db none extra) := by
  have hbound : ∀ (p : MessageRow → Bool),
      ∀ m ∈ fetchMessages db (some ⟨some lo, some hi⟩) p,
      lo ≤ m.ts ∧ m.ts ≤ hi := by
    intro p m hm
    simp only [fetchMessages, List.mem_filter, timeFilterPred, Bool.and_eq_true,
      decide_eq_true_eq] at hm
    exact ⟨hm.2.1.1, hm.2.1.2⟩
  refine ⟨hbound extra, rfl, rfl, ?_, ?_⟩
  · intro r hr
    simp only [repeatFetch, List.mem_insertionSort, List.mem_filterMap] at hr
    obtain ⟨m, hm, htr⟩ := hr
    have hts : r.ts = m.ts := by
      unfold toRMsg at htr
      cases hfm : findMember db.members m.senderId with
      | none => rw [hfm] at htr; cases htr
      | some mem =>
        cases hc : m.content with
        | none => rw [hfm, hc] at htr; cases htr
        | some c =>
          rw [hfm, hc] at htr
          cases htr
          rfl
    rw [hts]
    exact hbound (repeatCond db) m hm
  · intro hall
    unfold fetchMessages
    apply List.filter_congr
    intro m hm
    have := hall m hm
    simp [timeFilterPred, this.1, this.2]

/-- C4 witness: the omitted filter equals the unconstrained filter on the
C6 scenario store. -/
theorem time_filter_correct_witness :
    fetchMessages repeatScenarioDb none (fun _ => true) =
      fetchMessages repeatScenarioDb (some ⟨none, none⟩) (fun _ => true) :=
  (time_filter_correct repeatScenarioDb (fun _ => true) 0 1000).2.1

/-- C1 counterexample: an exception raised between store-file creation
and the try block (the pragmas, the CREATE TABLE exec, the statement
prepares or the initial BEGIN) propagates as a rejection instead of a
typed failure and leaves both the partial store file and the preprocessor
temp file on disk; the partial store still never appears in the session
listing, because its meta row was never written. -/
theorem import_atomic_cex :
    (streamImportRun fsW "chat_1_bb" "tmp1" scSetupW).result =
      RunResult.raised "disk full" ∧
    (streamImportRun fsW "chat_1_bb" "tmp1" scSetupW).fs.stores =
      fsW.stores ++ [⟨"chat_1_bb", false⟩] ∧
    (streamImportRun fsW "chat_1_bb" "tmp1" scSetupW).fs.temps = ["tmp1"] ∧
    "chat_1_bb" ∉
      getAllSessions (streamImportRun fsW "chat_1_bb" "tmp1" scSetupW).fs := by
  decide

/-- C1 amended: a failure raised inside the try block is handled
atomically (typed failure, transaction rolled back exactly when open,
partial store file deleted, preprocessor temp file cleaned up); a failure
in the setup window between store-file creation and the try block instead
propagates as a rejection and leaves the partial store and temp files on
disk; in both cases the failed session is invisible in the session
listing, since its meta row is only written inside the try block and the
listing skips meta-less stores. -/
theorem import_atomic (fs : WorkerFs) (sessionId tempPath : String)
    (sc : ImportScenario) (err : String)
    (hfresh : sessionId ∉ fs.stores.map StoreFile.sessionId)
    (htemp : tempPath ∉ fs.temps)
    (hfmt : sc.formatRecognized = true)
    (hpre : ¬(sc.needsPre = true ∧ sc.preFails = true)) :
    (sc.setupFailure = none → sc.bodyFailure = some err →
      (streamImportRun fs sessionId tempPath sc).result =
        RunResult.returned ⟨false, none, some err⟩ ∧
      (streamImportRun fs sessionId tempPath sc).fs.stores = fs.stores ∧
      (streamImportRun fs sessionId tempPath sc).fs.temps = fs.temps ∧
      (streamImportRun fs sessionId tempPath sc).rolledBack =
        sc.inTransactionAtFailure) ∧
    (sc.setupFailure = some err →
      (streamImportRun fs sessionId tempPath sc).result = RunResult.raised err ∧
      (streamImportRun fs sessionId tempPath sc).fs.stores =
        fs.stores ++ [⟨sessionId, false⟩] ∧
      (streamImportRun fs sessionId tempPath sc).fs.temps =
        fs.temps ++ (if sc.needsPre = true then [tempPath] else [])) ∧
    ((sc.setupFailure.isSome ∨ sc.bodyFailure.isSome) →
      sessionId ∉ getAllSessions (streamImportRun fs sessionId tempPath sc).fs) := by
  have hpre2 : (sc.needsPre && sc.preFails) = false := by
    cases hp : sc.needsPre <;> cases hq : sc.preFails <;> simp_all
  have hstores : (fs.stores ++ [(⟨sessionId, false⟩ : StoreFile)]).filter
      (fun s => s.sessionId != sessionId) = fs.stores := by
    rw [List.filter_append,
      List.filter_eq_self.mpr (fun s hs => by
        have hne : s.sessionId ≠ sessionId := by
          intro he
          exact hfresh (he ▸ List.mem_map.mpr ⟨s, hs, rfl⟩)
        simpa using hne)]
    simp
  have htemps : (fs.temps ++ [tempPath]).erase tempPath = fs.temps := by
    rw [List.erase_append_right _ htemp, List.erase_cons_head, List.append_nil]
  refine ⟨?_, ?_, ?_⟩
  · intro hsetup hbody
    unfold streamImportRun
    rw [hfmt, hpre2, hsetup, hbody]
    dsimp only
    refine ⟨rfl, hstores, ?_, rfl⟩
    by_cases hn : sc.needsPre = true
    · rw [if_pos hn, htemps]
      rfl
    · rw [if_neg hn]
      rfl
  · intro hsetup
    unfold streamImportRun
    rw [hfmt, hpre2, hsetup]
    dsimp only
    exact ⟨rfl, rfl, rfl⟩
  · intro hor
    cases hs : sc.setupFailure with
    | some err2 =>
      unfold streamImportRun getAllSessions
      rw [hfmt, hpre2, hs]
      dsimp only
      intro hmem
      obtain ⟨s, hsmem, hsid⟩ := List.mem_map.mp hmem
      have hsf := List.mem_filter.mp hsmem
      rcases List.mem_append.mp hsf.1 with h1 | h2
      · exact hfresh (List.mem_map.mpr ⟨s, h1, hsid⟩)
      · have hmeta := hsf.2
        rw [List.mem_singleton.mp h2] at hmeta
        simp at hmeta
    | none =>
      cases hb : sc.bodyFailure with
      | none =>
        rw [hs, hb] at hor
        simp at hor
      | some err2 =>
        unfold streamImportRun getAllSessions
        rw [hfmt, hpre2, hs, hb]
        dsimp only
        intro hmem
        obtain ⟨s, hsmem, hsid⟩ := List.mem_map.mp hmem
        have hsf := List.mem_filter.mp hsmem
        have hsf2 := List.mem_filter.mp hsf.1
        have hbne := hsf2.2
        rw [hsid] at hbne
        simp at hbne

/-- C1 witness: the amended theorem applied to a concrete failing run
with an exception inside the try block. -/
theorem import_atomic_witness :
    "chat_1_bb" ∉ getAllSessions (streamImportRun fsW "chat_1_bb" "tmp1" scW).fs :=
  (import_atomic fsW "chat_1_bb" "tmp1" scW "disk full" (by decide) (by decide)
    rfl (by decide)).2.2 (by decide)

/-! ## Parser contract lemmas (C8) -/

/-- Every chunk the batch collector produces is at most the batch size,
provided the current batch is still below it. -/
theorem chunkedGo_length_le {α : Type} (bs : Nat) (hbs : 0 < bs) :
    ∀ (l cur : List α), cur.length < bs →
      ∀ c ∈ chunkedGo bs l cur, c.length ≤ bs := by
  intro l
  induction l with
  | nil =>
    intro cur hcur c hc
    unfold chunkedGo at hc
    split at hc
    · cases hc
    · rw [List.mem_singleton.mp hc]
      omega
  | cons x xs ih =>
    intro cur hcur c hc
    unfold chunkedGo at hc
    split at hc
    next heq =>
      rcases List.mem_cons.mp hc with h1 | h2
      · rw [h1]
        omega
      · exact ih [] (by simpa using hbs) c h2
    next hne =>
      refine ih (cur ++ [x]) ?_ c hc
      have hlen : (cur ++ [x]).length = cur.length + 1 := by simp
      omega

theorem chunked_length_le {α : Type} (bs : Nat) (hbs : 0 < bs) (l : List α) :
    ∀ c ∈ chunked bs l, c.length ≤ bs :=
  chunkedGo_length_le bs hbs l [] (by simpa using hbs)

/-- Flattening the chunks recovers the input list. -/
theorem chunkedGo_flatten {α : Type} (bs : Nat) :
    ∀ (l cur : List α), (chunkedGo bs l cur).flatten = cur ++ l := by
  intro l
  induction l with
  | nil =>
    intro cur
    unfold chunkedGo
    split
    next h => simp [List.isEmpty_iff.mp h]
    next => simp
  | cons x xs ih =>
    intro cur
    unfold chunkedGo
    split
    next => simp [ih []]
    next => simp [ih (cur ++ [x])]

theorem chunked_flatten {α : Type} (bs : Nat) (l : List α) :
    (chunked bs l).flatten = l := by
  simpa using chunkedGo_flatten bs l []

/-- The shape of one parseChatLab run: initial progress, the meta event,
then the tail. -/
theorem parseChatLab_shape (file : ChatLabFile) (bs : Nat) :
    parseChatLab file bs =
      ParseEvent.progress "parsing" ::
      ParseEvent.meta ⟨file.metaName, file.metaPlatform, file.metaType⟩ ::
      parseTail file bs := by
  unfold parseChatLab parseTail parsedMembersOf parsedMessagesOf
  by_cases h1 : file.headMembers.length > 0
  · simp [h1]
  · simp [h1]

theorem parseTail_no_meta (file : ChatLabFile) (bs : Nat) :
    ∀ e ∈ parseTail file bs, isMetaEv e = false := by
  intro e he
  unfold parseTail at he
  rcases List.mem_append.mp he with h1 | h2
  · rcases List.mem_append.mp h1 with h1a | h1b
    · split at h1a
      · rw [List.mem_singleton.mp h1a]
        rfl
      · cases h1a
    · obtain ⟨c, _, hc⟩ := List.mem_map.mp h1b
      rw [← hc]
      rfl
  · rcases List.mem_cons.mp h2 with h2a | h2b
    · rw [h2a]
      rfl
    · rw [List.mem_singleton.mp h2b]
      rfl

theorem parseTail_done_count (file : ChatLabFile) (bs : Nat) :
    (parseTail file bs).countP isDoneEv = 1 := by
  unfold parseTail
  rw [List.countP_append, List.countP_append]
  have hA : ((if (parsedMembersOf file).length > 0 then
      [ParseEvent.members (parsedMembersOf file)] else []) : List ParseEvent).countP
      isDoneEv = 0 := by
    split <;> rfl
  have hB : ((chunked bs (parsedMessagesOf file)).map ParseEvent.messages).countP
      isDoneEv = 0 := by
    apply List.countP_eq_zero.mpr
    intro e he
    obtain ⟨c, _, hc⟩ := List.mem_map.mp he
    rw [← hc]
    simp [isDoneEv]
  rw [hA, hB]
  rfl

theorem parseTail_getLast (file : ChatLabFile) (bs : Nat) :
    (parseTail file bs).getLast? =
      some (ParseEvent.done file.messages.length (parsedMembersOf file).length) := by
  unfold parseTail
  rw [List.getLast?_append, List.getLast?_append]
  rfl

theorem parseTail_messages_mem (file : ChatLabFile) (bs : Nat)
    (b : List ParsedMessage) :
    ParseEvent.messages b ∈ parseTail file bs →
      b ∈ chunked bs (parsedMessagesOf file) := by
  intro h
  unfold parseTail at h
  rcases List.mem_append.mp h with h1 | h2
  · rcases List.mem_append.mp h1 with h1a | h1b
    · split at h1a
      · cases List.mem_singleton.mp h1a
      · cases h1a
    · obtain ⟨c, hcmem, hc⟩ := List.mem_map.mp h1b
      cases hc
      exact hcmem
  · rcases List.mem_cons.mp h2 with h2a | h2b
    · cases h2a
    · cases List.mem_singleton.mp h2b

/-- Helper for the ordering part of the contract: in a list starting with
a non-meta non-messages event and a meta event, followed by a tail with no
meta events, every meta index precedes every messages index. -/
theorem meta_before_messages (p q : ParseEvent) (T : List ParseEvent)
    (hp : isMetaEv p = false) (hT : ∀ e ∈ T, isMetaEv e = false)
    (hpm : isMessagesEv p = false) (hqm : isMessagesEv q = false) :
    ∀ (i j : Nat) (hi : i < (p :: q :: T).length) (hj : j < (p :: q :: T).length),
      isMetaEv ((p :: q :: T).get ⟨i, hi⟩) = true →
      isMessagesEv ((p :: q :: T).get ⟨j, hj⟩) = true → i < j := by
  intro i j hi hj hmi hmj
  have hi1 : i = 1 := by
    rcases i with _ | _ | k
    · rw [show (p :: q :: T).get ⟨0, hi⟩ = p from rfl, hp] at hmi
      cases hmi
    · rfl
    · have hk : k < T.length := by
        simpa using hi
      have hmem : (p :: q :: T).get ⟨k + 2, hi⟩ = T.get ⟨k, hk⟩ := rfl
      rw [hmem, hT _ (T.get_mem k hk)] at hmi
      cases hmi
  have hj2 : 2 ≤ j := by
    rcases j with _ | _ | k
    · rw [show (p :: q :: T).get ⟨0, hj⟩ = p from rfl, hpm] at hmj
      cases hmj
    · rw [show (p :: q :: T).get ⟨1, hj⟩ = q from rfl, hqm] at hmj
      cases hmj
    · omega
  omega

/-- C8: every event sequence the ChatLab parser produces contains exactly
one meta event, which precedes every messages event; every messages event
carries at most batchSize messages; and the sequence ends with exactly one
done event, with nothing after it. -/
theorem chatlab_parser_event_contract (file : ChatLabFile) (batchSize : Nat)
    (hbs : 0 < batchSize) :
    ((parseChatLab file batchSize).countP isMetaEv = 1) ∧
    (∀ (i j : Nat) (hi : i < (parseChatLab file batchSize).length)
        (hj : j < (parseChatLab file batchSize).length),
      isMetaEv ((parseChatLab file batchSize).get ⟨i, hi⟩) = true →
      isMessagesEv ((parseChatLab file batchSize).get ⟨j, hj⟩) = true → i < j) ∧
    (∀ b, ParseEvent.messages b ∈ parseChatLab file batchSize →
      b.length ≤ batchSize) ∧
    ((parseChatLab file batchSize).countP isDoneEv = 1) ∧
    (∃ mc nc, (parseChatLab file batchSize).getLast? =
      some (ParseEvent.done mc nc)) := by
  have hsh := parseChatLab_shape file batchSize
  refine ⟨?_, ?_, ?_, ?_, ?_⟩
  · rw [hsh, List.countP_cons, List.countP_cons,
      List.countP_eq_zero.mpr (fun e he => by
        rw [parseTail_no_meta file batchSize e he]; exact Bool.false_ne_true)]
    rfl
  · rw [hsh]
    exact meta_before_messages _ _ _ rfl (parseTail_no_meta file batchSize) rfl rfl
  · intro b hb
    rw [hsh] at hb
    rcases List.mem_cons.mp hb with h0 | hb1
    · cases h0
    rcases List.mem_cons.mp hb1 with h1 | hb2
    · cases h1
    exact chunked_length_le batchSize hbs _ b
      (parseTail_messages_mem file batchSize b hb2)
  · rw [hsh, List.countP_cons, List.countP_cons, parseTail_done_count]
    rfl
  · refine ⟨file.messages.length, (parsedMembersOf file).length, ?_⟩
    rw [hsh]
    show ([ParseEvent.progress "parsing",
      ParseEvent.meta ⟨file.metaName, file.metaPlatform, file.metaType⟩] ++
      parseTail file batchSize).getLast? = _
    rw [List.getLast?_append, parseTail_getLast]
    rfl

/-- C8 witness: the contract applied to a concrete file at the default
batch size. -/
theorem chatlab_parser_event_contract_witness :
    (parseChatLab okFile 5000).countP isMetaEv = 1 :=
  (chatlab_parser_event_contract okFile 5000 (by decide)).1

/-! ## Association-list (JavaScript Map) lemmas -/

theorem mapGet_mapSet_self {α β : Type} [DecidableEq α] (l : List (α × β))
    (k : α) (v : β) : mapGet (mapSet l k v) k = some v := by
  induction l with
  | nil => simp [mapSet, mapGet]
  | cons e rest ih =>
    unfold mapSet
    by_cases h : e.1 = k
    · rw [if_pos h]
      unfold mapGet
      rw [if_pos rfl]
    · rw [if_neg h]
      unfold mapGet
      rw [if_neg h]
      exact ih

theorem mapGet_mapSet_ne {α β : Type} [DecidableEq α] (l : List (α × β))
    (k k2 : α) (v : β) (h : k2 ≠ k) :
    mapGet (mapSet l k v) k2 = mapGet l k2 := by
  induction l with
  | nil =>
    unfold mapSet mapGet
    rw [if_neg (Ne.symm h)]
    rfl
  | cons e rest ih =>
    unfold mapSet
    by_cases he : e.1 = k
    · rw [if_pos he]
      unfold mapGet
      rw [if_neg (by rw [show ((k, v) : α × β).1 = k from rfl]; exact Ne.symm h),
        if_neg (by rw [he]; exact Ne.symm h)]
    · rw [if_neg he]
      unfold mapGet
      by_cases he2 : e.1 = k2
      · rw [if_pos he2, if_pos he2]
      · rw [if_neg he2, if_neg he2]
        exact ih

theorem mapGet_eq_some_mem {α β : Type} [DecidableEq α] (l : List (α × β))
    (k : α) (v : β) (h : mapGet l k = some v) : (k, v) ∈ l := by
  induction l with
  | nil => cases h
  | cons e rest ih =>
    unfold mapGet at h
    by_cases he : e.1 = k
    · rw [if_pos he] at h
      have hv : e.2 = v := Option.some.inj h
      have : e = (k, v) := Prod.ext he hv
      rw [← this]
      exact List.mem_cons_self e rest
    · rw [if_neg he] at h
      exact List.mem_cons_of_mem _ (ih h)

theorem mapSet_forall {α β : Type} [DecidableEq α] (P : α × β → Prop)
    (l : List (α × β)) (k : α) (v : β)
    (hl : ∀ e ∈ l, P e) (hv : P (k, v)) : ∀ e ∈ mapSet l k v, P e := by
  induction l with
  | nil =>
    intro e he
    rw [List.mem_singleton.mp he]
    exact hv
  | cons e0 rest ih =>
    unfold mapSet
    by_cases h : e0.1 = k
    · rw [if_pos h]
      intro e he
      rcases List.mem_cons.mp he with h1 | h2
      · rw [h1]; exact hv
      · exact hl e (List.mem_cons_of_mem _ h2)
    · rw [if_neg h]
      intro e he
      rcases List.mem_cons.mp he with h1 | h2
      · rw [h1]; exact hl e0 (List.mem_cons_self _ _)
      · exact ih (fun x hx => hl x (List.mem_cons_of_mem _ hx)) e h2

theorem mapSet_keys_mem {α β : Type} [DecidableEq α] (l : List (α × β))
    (k : α) (v : β) (k2 : α) :
    k2 ∈ (mapSet l k v).map Prod.fst ↔ (k2 ∈ l.map Prod.fst ∨ k2 = k) := by
  induction l with
  | nil => simp [mapSet]
  | cons e rest ih =>
    unfold mapSet
    by_cases h : e.1 = k
    · rw [if_pos h]
      simp only [List.map_cons, List.mem_cons]
      rw [← h]
      tauto
    · rw [if_neg h]
      simp only [List.map_cons, List.mem_cons]
      rw [ih]
      tauto

theorem mapSet_keys_nodup {α β : Type} [DecidableEq α] (l : List (α × β))
    (k : α) (v : β) (h : (l.map Prod.fst).Nodup) :
    ((mapSet l k v).map Prod.fst).Nodup := by
  induction l with
  | nil => simp [mapSet]
  | cons e rest ih =>
    unfold mapSet
    by_cases he : e.1 = k
    · rw [if_pos he]
      simpa [← he] using h
    · rw [if_neg he]
      simp only [List.map_cons, List.nodup_cons] at h ⊢
      refine ⟨?_, ih h.2⟩
      intro hmem
      rcases (mapSet_keys_mem rest k v e.1).mp hmem with h1 | h2
      · exact h.1 h1
      · exact he h2

theorem mapGet_eq_none_iff {α β : Type} [DecidableEq α] (l : List (α × β))
    (k : α) : mapGet l k = none ↔ k ∉ l.map Prod.fst := by
  induction l with
  | nil => simp [mapGet]
  | cons e rest ih =>
    unfold mapGet
    by_cases he : e.1 = k
    · simp [he]
    · simp only [if_neg he, List.map_cons, List.mem_cons, ih]
      constructor
      · intro hn hc
        rcases hc with h1 | h2
        · exact he h1.symm
        · exact hn h2
      · intro hn
        exact fun h2 => hn (Or.inr h2)

theorem mapDelete_length_le {α β : Type} [DecidableEq α] (l : List (α × β))
    (k : α) : (mapDelete l k).length ≤ l.length := by
  induction l with
  | nil => simp [mapDelete]
  | cons e rest ih =>
    unfold mapDelete
    by_cases he : e.1 = k
    · rw [if_pos he]
      simp
    · rw [if_neg he]
      simpa using ih

/-! ## Importer well-formedness lemmas -/

theorem find?_singleton_platform (row : MemberRow) (pid : String) :
    [row].find? (fun m => m.platformId == pid) =
      (if row.platformId == pid then some row else none) := by
  by_cases h : row.platformId == pid
  · rw [if_pos h]
    exact List.find?_cons_of_pos _ h
  · rw [if_neg h]
    rw [List.find?_cons_of_neg _ (by simpa using h)]
    rfl

theorem insertMemberOrIgnore_found (st : ImportState) (pid name : String)
    (nick : Option String)
    (hs : (st.db.members.find? (fun m => m.platformId == pid)).isSome = true) :
    insertMemberOrIgnore st pid name nick = st := by
  unfold insertMemberOrIgnore
  rw [if_pos hs]

theorem ensureMember_found (st : ImportState) (pid name : String)
    (nick : Option String) (rid : Nat)
    (hget : getMemberRowId st pid = some rid) :
    ensureMember st pid name nick =
      { st with memberIdMap := mapSet st.memberIdMap pid rid } := by
  have hs : (st.db.members.find? (fun m => m.platformId == pid)).isSome = true := by
    unfold getMemberRowId at hget
    cases h : st.db.members.find? (fun m => m.platformId == pid) with
    | none => rw [h] at hget; cases hget
    | some r => rfl
  unfold ensureMember
  rw [insertMemberOrIgnore_found st pid name nick hs, hget]

theorem insertMemberOrIgnore_fresh (st : ImportState) (pid name : String)
    (nick : Option String)
    (hfind : st.db.members.find? (fun m => m.platformId == pid) = none) :
    insertMemberOrIgnore st pid name nick =
      { st with
        db := { st.db with
          members := st.db.members ++ [⟨st.nextMemberId, pid, name, nick⟩] }
        nextMemberId := st.nextMemberId + 1 } := by
  unfold insertMemberOrIgnore
  rw [if_neg (by rw [hfind]; simp)]

theorem ensureMember_fresh (st : ImportState) (pid name : String)
    (nick : Option String)
    (hget : getMemberRowId st pid = none) :
    ensureMember st pid name nick =
      { st with
        db := { st.db with
          members := st.db.members ++ [⟨st.nextMemberId, pid, name, nick⟩] }
        nextMemberId := st.nextMemberId + 1
        memberIdMap := mapSet st.memberIdMap pid st.nextMemberId } := by
  have hfind : st.db.members.find? (fun m => m.platformId == pid) = none := by
    unfold getMemberRowId at hget
    cases h : st.db.members.find? (fun m => m.platformId == pid) with
    | none => rfl
    | some r => rw [h] at hget; cases hget
  have hget2 : getMemberRowId
      { st with
        db := { st.db with
          members := st.db.members ++ [⟨st.nextMemberId, pid, name, nick⟩] }
        nextMemberId := st.nextMemberId + 1 } pid = some st.nextMemberId := by
    unfold getMemberRowId
    show ((st.db.members ++
      [(⟨st.nextMemberId, pid, name, nick⟩ : MemberRow)]).find?
        (fun m => m.platformId == pid)).map MemberRow.id = some st.nextMemberId
    rw [List.find?_append, hfind, find?_singleton_platform]
    simp
  unfold ensureMember
  rw [insertMemberOrIgnore_fresh st pid name nick hfind, hget2]

/-- The member row found for a cached sender id, from well-formedness. -/
theorem wf_senderId_exists (st : ImportState) (pid : String) (sid : Nat)
    (hwf : ImportWf st) (h : mapGet st.memberIdMap pid = some sid) :
    ∃ mem, mem ∈ st.db.members ∧ mem.id = sid := by
  rw [hwf.1 pid] at h
  unfold getMemberRowId at h
  cases hf : st.db.members.find? (fun m => m.platformId == pid) with
  | none => rw [hf] at h; cases h
  | some row =>
    rw [hf] at h
    exact ⟨row, List.mem_of_find?_eq_some hf, Option.some.inj h⟩

theorem ensureMember_wf (st : ImportState) (pid name : String)
    (nick : Option String) (hwf : ImportWf st) :
    ImportWf (ensureMember st pid name nick) ∧
    (ensureMember st pid name nick).db.messages = st.db.messages ∧
    (ensureMember st pid name nick).db.history = st.db.history ∧
    (ensureMember st pid name nick).nicknameTracker = st.nicknameTracker ∧
    (ensureMember st pid name nick).memberNicknameMap = st.memberNicknameMap ∧
    mapHas (ensureMember st pid name nick).memberIdMap pid = true ∧
    (∀ p2, p2 ≠ pid → mapGet (ensureMember st pid name nick).memberIdMap p2 =
      mapGet st.memberIdMap p2) := by
  obtain ⟨hw1, hw2, hw3, hw4⟩ := hwf
  cases hget : getMemberRowId st pid with
  | some rid =>
    rw [ensureMember_found st pid name nick rid hget]
    refine ⟨⟨?_, hw2, hw3, hw4⟩, rfl, rfl, rfl, rfl, ?_, ?_⟩
    · intro p2
      by_cases hp : p2 = pid
      · subst hp
        rw [mapGet_mapSet_self]
        exact hget.symm
      · rw [mapGet_mapSet_ne _ _ _ _ hp]
        exact hw1 p2
    · unfold mapHas
      rw [mapGet_mapSet_self]
      rfl
    · intro p2 hp
      exact mapGet_mapSet_ne _ _ _ _ hp
  | none =>
    rw [ensureMember_fresh st pid name nick hget]
    have hfind : st.db.members.find? (fun m => m.platformId == pid) = none := by
      unfold getMemberRowId at hget
      cases h : st.db.members.find? (fun m => m.platformId == pid) with
      | none => rfl
      | some r => rw [h] at hget; cases hget
    refine ⟨⟨?_, ?_, ?_, ?_⟩, rfl, rfl, rfl, rfl, ?_, ?_⟩
    · intro p2
      by_cases hp : p2 = pid
      · subst hp
        rw [mapGet_mapSet_self]
        unfold getMemberRowId
        show _ = ((st.db.members ++
          [(⟨st.nextMemberId, p2, name, nick⟩ : MemberRow)]).find?
            (fun m => m.platformId == p2)).map MemberRow.id
        rw [List.find?_append, hfind, find?_singleton_platform]
        simp
      · rw [mapGet_mapSet_ne _ _ _ _ hp, hw1 p2]
        unfold getMemberRowId
        show _ = ((st.db.members ++
          [(⟨st.nextMemberId, pid, name, nick⟩ : MemberRow)]).find?
            (fun m => m.platformId == p2)).map MemberRow.id
        rw [List.find?_append, find?_singleton_platform]
        rw [if_neg (by simpa using fun h => hp h.symm)]
        cases st.db.members.find? (fun m => m.platformId == p2) <;> rfl
    · intro m hm
      rcases List.mem_append.mp hm with h1 | h2
      · exact Nat.lt_succ_of_lt (hw2 m h1)
      · rw [List.mem_singleton.mp h2]
        exact Nat.lt_succ_self _
    · rw [List.map_append]
      simp only [List.map_cons, List.map_nil]
      rw [List.nodup_append]
      refine ⟨hw3, List.nodup_singleton _, ?_⟩
      intro a ha hb
      rw [List.mem_singleton.mp hb] at ha
      obtain ⟨m, hm, hid⟩ := List.mem_map.mp ha
      exact absurd (hid ▸ hw2 m hm) (Nat.lt_irrefl _)
    · intro row hrow
      obtain ⟨mem, hmem, hid⟩ := hw4 row hrow
      exact ⟨mem, List.mem_append_left _ hmem, hid⟩
    · unfold mapHas
      rw [mapGet_mapSet_self]
      rfl
    · intro p2 hp
      exact mapGet_mapSet_ne _ _ _ _ hp

/-- The general effect of the onMembers handler: well-formedness is
preserved, the message, history and tracker state is untouched, and the
row-id cache only grows. -/
theorem handleMembers_wf (ms : List ParsedMember) : ∀ st : ImportState,
    ImportWf st →
    ImportWf (handleMembers st ms) ∧
    (handleMembers st ms).db.messages = st.db.messages ∧
    (handleMembers st ms).db.history = st.db.history ∧
    (handleMembers st ms).nicknameTracker = st.nicknameTracker ∧
    (∀ p2, mapHas st.memberIdMap p2 = true →
      mapHas (handleMembers st ms).memberIdMap p2 = true) ∧
    (∀ m2 ∈ ms, mapHas (handleMembers st ms).memberIdMap m2.platformId = true) := by
  induction ms with
  | nil =>
    intro st h
    exact ⟨h, rfl, rfl, rfl, fun _ hp => hp, fun _ hm => absurd hm (List.not_mem_nil _)⟩
  | cons m rest ih =>
    intro st h
    have hfold : handleMembers st (m :: rest) =
        handleMembers (match nickOf m with
          | some n =>
            { ensureMember st m.platformId m.name (nickOf m) with
              memberNicknameMap :=
                mapSet (ensureMember st m.platformId m.name (nickOf m)).memberNicknameMap
                  m.platformId n }
          | none => ensureMember st m.platformId m.name (nickOf m)) rest := rfl
    have hstep : ∀ st2 : ImportState,
        st2 = (match nickOf m with
          | some n =>
            { ensureMember st m.platformId m.name (nickOf m) with
              memberNicknameMap :=
                mapSet (ensureMember st m.platformId m.name (nickOf m)).memberNicknameMap
                  m.platformId n }
          | none => ensureMember st m.platformId m.name (nickOf m)) →
        ImportWf st2 ∧ st2.db.messages = st.db.messages ∧
        st2.db.history = st.db.history ∧ st2.nicknameTracker = st.nicknameTracker ∧
        mapHas st2.memberIdMap m.platformId = true ∧
        (∀ p2, p2 ≠ m.platformId →
          mapGet st2.memberIdMap p2 = mapGet st.memberIdMap p2) := by
      intro st2 hst2
      cases hn : nickOf m with
      | some n =>
        rw [hn] at hst2
        subst hst2
        obtain ⟨h1, h2, h3, h4, _, h6, h7⟩ :=
          ensureMember_wf st m.platformId m.name (some n) h
        exact ⟨h1, h2, h3, h4, h6, h7⟩
      | none =>
        rw [hn] at hst2
        subst hst2
        obtain ⟨h1, h2, h3, h4, _, h6, h7⟩ :=
          ensureMember_wf st m.platformId m.name none h
        exact ⟨h1, h2, h3, h4, h6, h7⟩
    obtain ⟨hwf3, hmsg3, hhist3, htr3, hhas3, hother3⟩ := hstep _ rfl
    obtain ⟨ihwf, ihmsg, ihhist, ihtr, ihmono, ihms⟩ := ih _ hwf3
    rw [hfold]
    refine ⟨ihwf, by rw [ihmsg, hmsg3], by rw [ihhist, hhist3],
      by rw [ihtr, htr3], ?_, ?_⟩
    · intro p2 hp
      apply ihmono
      by_cases hpp : p2 = m.platformId
      · subst hpp
        exact hhas3
      · unfold mapHas
        rw [hother3 p2 hpp]
        exact hp
    · intro m2 hm2
      rcases List.mem_cons.mp hm2 with h1 | h2
      · subst h1
        exact ihmono _ hhas3
      · exact ihms m2 h2

/-- The nickname tracking touches only the tracker component, and
preserves distinctness of the tracked platform ids. -/
theorem trackNickname_effects (st : ImportState) (msg : ParsedMessage) (ts : Int) :
    (trackNickname st msg ts).db = st.db ∧
    (trackNickname st msg ts).memberIdMap = st.memberIdMap ∧
    (trackNickname st msg ts).memberNicknameMap = st.memberNicknameMap ∧
    (trackNickname st msg ts).nextMemberId = st.nextMemberId ∧
    (trackNickname st msg ts).nextMessageId = st.nextMessageId ∧
    (((st.nicknameTracker.map Prod.fst).Nodup →
      ((trackNickname st msg ts).nicknameTracker.map Prod.fst).Nodup)) := by
  unfold trackNickname
  cases h : mapGet st.nicknameTracker msg.senderPlatformId with
  | none =>
    dsimp only
    by_cases hr : isRealFor st.memberNicknameMap msg = true
    · rw [if_pos hr]
      exact ⟨rfl, rfl, rfl, rfl, rfl, fun hh => mapSet_keys_nodup _ _ _ hh⟩
    · rw [if_neg hr]
      exact ⟨rfl, rfl, rfl, rfl, rfl, fun hh => hh⟩
  | some tracker =>
    dsimp only
    by_cases hc : tracker.currentName ≠ senderNameOf msg ∧
        isRealFor st.memberNicknameMap msg = true
    · rw [if_pos hc]
      exact ⟨rfl, rfl, rfl, rfl, rfl, fun hh => mapSet_keys_nodup _ _ _ hh⟩
    · rw [if_neg hc]
      exact ⟨rfl, rfl, rfl, rfl, rfl, fun hh => mapSet_keys_nodup _ _ _ hh⟩

/-- Nickname tracking preserves the import well-formedness invariant. -/
theorem trackNickname_wf (st : ImportState) (msg : ParsedMessage) (ts : Int)
    (hwf : ImportWf st) : ImportWf (trackNickname st msg ts) := by
  obtain ⟨k1, k2, _, k4, _, _⟩ := trackNickname_effects st msg ts
  obtain ⟨g1, g2, g3, g4⟩ := hwf
  refine ⟨?_, ?_, ?_, ?_⟩
  · intro pid
    rw [k2]
    unfold getMemberRowId
    rw [k1]
    exact g1 pid
  · intro m hm
    rw [k1] at hm
    rw [k4]
    exact g2 m hm
  · rw [k1]
    exact g3
  · intro row hrow
    rw [k1] at hrow ⊢
    exact g4 row hrow

/-- Processing the core of a message (after the ensure-member step):
well-formedness is preserved, history stays untouched, and tracked
platform ids stay distinct. -/
theorem handleMessageCore_wf (st : ImportState) (msg : ParsedMessage)
    (hwf : ImportWf st) :
    ImportWf (handleMessageCore st msg) ∧
    (handleMessageCore st msg).db.history = st.db.history ∧
    ((st.nicknameTracker.map Prod.fst).Nodup →
      ((handleMessageCore st msg).nicknameTracker.map Prod.fst).Nodup) := by
  unfold handleMessageCore
  cases hg : mapGet st.memberIdMap msg.senderPlatformId with
  | none => exact ⟨hwf, rfl, fun hh => hh⟩
  | some senderId =>
    cases hts : msg.timestamp with
    | none =>
      cases hty : msg.msgType with
      | none => exact ⟨hwf, rfl, fun hh => hh⟩
      | some ty => exact ⟨hwf, rfl, fun hh => hh⟩
    | some ts =>
      cases hty : msg.msgType with
      | none => exact ⟨hwf, rfl, fun hh => hh⟩
      | some ty =>
        dsimp only
        obtain ⟨hw1, hw2, hw3, hw4⟩ := hwf
        have hmsgwf : ImportWf
            { st with
              db := { st.db with
                messages := st.db.messages ++
                  [⟨st.nextMessageId, senderId, ts, ty, msg.content⟩] }
              nextMessageId := st.nextMessageId + 1 } := by
          refine ⟨hw1, hw2, hw3, ?_⟩
          intro row hrow
          rcases List.mem_append.mp hrow with h1 | h2
          · exact hw4 row h1
          · rw [List.mem_singleton.mp h2]
            exact wf_senderId_exists st msg.senderPlatformId senderId
              ⟨hw1, hw2, hw3, hw4⟩ hg
        obtain ⟨htdb, _, _, _, _, htnd⟩ := trackNickname_effects
          { st with
            db := { st.db with
              messages := st.db.messages ++
                [⟨st.nextMessageId, senderId, ts, ty, msg.content⟩] }
            nextMessageId := st.nextMessageId + 1 } msg ts
        refine ⟨trackNickname_wf _ msg ts hmsgwf, ?_, fun hh => htnd hh⟩
        rw [htdb]

/-- The general effect of processing one message event entry:
well-formedness is preserved, the history table is untouched, and tracked
platform ids stay distinct. -/
theorem handleMessage_wf (st : ImportState) (msg : ParsedMessage)
    (hwf : ImportWf st) :
    ImportWf (handleMessage st msg) ∧
    (handleMessage st msg).db.history = st.db.history ∧
    ((st.nicknameTracker.map Prod.fst).Nodup →
      ((handleMessage st msg).nicknameTracker.map Prod.fst).Nodup) := by
  unfold handleMessage
  by_cases hv : isValidMsg msg = true
  case neg =>
    rw [if_pos (by simp [hv])]
    exact ⟨hwf, rfl, fun hh => hh⟩
  rw [if_neg (by simp [hv])]
  by_cases hh : mapHas st.memberIdMap msg.senderPlatformId = true
  · rw [if_pos hh]
    exact handleMessageCore_wf st msg hwf
  · rw [if_neg hh]
    obtain ⟨h1, _, h3, h4, _⟩ :=
      ensureMember_wf st msg.senderPlatformId (senderNameOf msg) none hwf
    obtain ⟨c1, c2, c3⟩ := handleMessageCore_wf
      (ensureMember st msg.senderPlatformId (senderNameOf msg) none) msg h1
    refine ⟨c1, ?_, fun hn => c3 ?_⟩
    · rw [c2, h3]
    · rw [h4]
      exact hn

/-- The empty import state is well formed. -/
theorem importInit_wf : ImportWf importInit := by
  refine ⟨fun pid => rfl, ?_, List.nodup_nil, ?_⟩
  · intro m hm
    exact absurd hm (List.not_mem_nil _)
  · intro row hrow
    exact absurd hrow (List.not_mem_nil _)

/-- Folding one message batch preserves well-formedness, the history table
and distinctness of the tracked platform ids. -/
theorem msgsFold_wf (msgs : List ParsedMessage) : ∀ st : ImportState,
    ImportWf st →
    ImportWf (msgs.foldl handleMessage st) ∧
    (msgs.foldl handleMessage st).db.history = st.db.history ∧
    ((st.nicknameTracker.map Prod.fst).Nodup →
      ((msgs.foldl handleMessage st).nicknameTracker.map Prod.fst).Nodup) := by
  induction msgs with
  | nil => exact fun st h => ⟨h, rfl, fun hh => hh⟩
  | cons m rest ih =>
    intro st h
    obtain ⟨h1, h2, h3⟩ := handleMessage_wf st m h
    obtain ⟨g1, g2, g3⟩ := ih (handleMessage st m) h1
    exact ⟨g1, by rw [List.foldl_cons, g2, h2], fun hh => g3 (h3 hh)⟩

/-- One parser event preserves well-formedness, the history table and
distinctness of the tracked platform ids. -/
theorem handleEvent_wf (st : ImportState) (ev : ParseEvent) (h : ImportWf st) :
    ImportWf (handleEvent st ev) ∧
    (handleEvent st ev).db.history = st.db.history ∧
    ((st.nicknameTracker.map Prod.fst).Nodup →
      ((handleEvent st ev).nicknameTracker.map Prod.fst).Nodup) := by
  cases ev with
  | progress s => exact ⟨h, rfl, fun hh => hh⟩
  | meta m => exact ⟨h, rfl, fun hh => hh⟩
  | members ms =>
    obtain ⟨h1, _, h3, h4, _⟩ := handleMembers_wf ms st h
    exact ⟨h1, h3, fun hh => by unfold handleEvent; rw [h4]; exact hh⟩
  | messages batch => exact msgsFold_wf batch st h
  | done mc nc => exact ⟨h, rfl, fun hh => hh⟩

/-- The event-loop fold preserves the import invariants. -/
theorem eventsFold_wf (events : List ParseEvent) : ∀ st : ImportState,
    ImportWf st →
    ImportWf (events.foldl handleEvent st) ∧
    (events.foldl handleEvent st).db.history = st.db.history ∧
    ((st.nicknameTracker.map Prod.fst).Nodup →
      ((events.foldl handleEvent st).nicknameTracker.map Prod.fst).Nodup) := by
  induction events with
  | nil => exact fun st h => ⟨h, rfl, fun hh => hh⟩
  | cons ev rest ih =>
    intro st h
    obtain ⟨h1, h2, h3⟩ := handleEvent_wf st ev h
    obtain ⟨g1, g2, g3⟩ := ih (handleEvent st ev) h1
    exact ⟨g1, by rw [List.foldl_cons, g2, h2], fun hh => g3 (h3 hh)⟩

/-- The import loop yields a well-formed state with an empty history table
and distinct tracked platform ids. -/
theorem runImport_wf (events : List ParseEvent) :
    ImportWf (runImport events) ∧
    (runImport events).db.history = [] ∧
    ((runImport events).nicknameTracker.map Prod.fst).Nodup := by
  obtain ⟨g1, g2, g3⟩ := eventsFold_wf events importInit importInit_wf
  exact ⟨g1, g2, g3 List.nodup_nil⟩

/-- Distinct platform ids cannot share a cached member row id in a
well-formed state: the cache agrees with the member table, whose rows have
pairwise distinct ids and carry their platform id. -/
theorem wf_map_inj (st : ImportState) (p1 p2 : String) (s : Nat)
    (hwf : ImportWf st) (h1 : mapGet st.memberIdMap p1 = some s)
    (h2 : mapGet st.memberIdMap p2 = some s) : p1 = p2 := by
  obtain ⟨hw1, _, hw3, _⟩ := hwf
  rw [hw1 p1] at h1
  rw [hw1 p2] at h2
  unfold getMemberRowId at h1 h2
  cases hf1 : st.db.members.find? (fun m => m.platformId == p1) with
  | none => rw [hf1] at h1; cases h1
  | some r1 =>
    cases hf2 : st.db.members.find? (fun m => m.platformId == p2) with
    | none => rw [hf2] at h2; cases h2
    | some r2 =>
      rw [hf1] at h1
      rw [hf2] at h2
      have hr1 : r1.id = s := Option.some.inj h1
      have hr2 : r2.id = s := Option.some.inj h2
      have hm1 : r1 ∈ st.db.members := List.mem_of_find?_eq_some hf1
      have hm2 : r2 ∈ st.db.members := List.mem_of_find?_eq_some hf2
      have heq : r1 = r2 :=
        List.inj_on_of_nodup_map hw3 hm1 hm2 (by rw [hr1, hr2])
      have hp1 : r1.platformId = p1 := by
        have hb := List.find?_some hf1
        simpa using hb
      have hp2 : r2.platformId = p2 := by
        have hb := List.find?_some hf2
        simpa using hb
      rw [← hp1, ← hp2, heq]

/-- The member-name update keeps the row ids in place. -/
theorem updateMemberName_ids (members : List MemberRow) (name p : String) :
    (updateMemberName members name p).map MemberRow.id =
      members.map MemberRow.id := by
  unfold updateMemberName
  rw [List.map_map]
  apply List.map_congr_left
  intro m hm
  simp only [Function.comp_apply]
  split <;> rfl

/-- Every row after the member-name update keeps its id and either keeps
its name or takes the written name. -/
theorem updateMemberName_names (members : List MemberRow) (name p : String)
    (m : MemberRow) (hm : m ∈ updateMemberName members name p) :
    ∃ m0 ∈ members, m.id = m0.id ∧ (m.name = m0.name ∨ m.name = name) := by
  unfold updateMemberName at hm
  obtain ⟨m0, hm0, heq⟩ := List.mem_map.mp hm
  refine ⟨m0, hm0, ?_⟩
  by_cases h : m0.platformId == p
  · rw [if_pos h] at heq
    rw [← heq]
    exact ⟨rfl, Or.inr rfl⟩
  · rw [if_neg h] at heq
    rw [← heq]
    exact ⟨rfl, Or.inl rfl⟩

/-- finalizeTracker changes nothing but the member names and the history
table; the history either stays, or grows by the block written for the
cached row id of the tracked platform id when more than one distinct name
remains. -/
theorem finalizeTracker_effects (st : ImportState) (p : String) (tr : Tracker) :
    (finalizeTracker st p tr).memberIdMap = st.memberIdMap ∧
    (finalizeTracker st p tr).nicknameTracker = st.nicknameTracker ∧
    (finalizeTracker st p tr).db.messages = st.db.messages ∧
    ((finalizeTracker st p tr).db.members = st.db.members ∨
     (finalizeTracker st p tr).db.members =
       updateMemberName st.db.members tr.currentName p) ∧
    ((finalizeTracker st p tr).db.history = st.db.history ∨
     ∃ s, mapGet st.memberIdMap p = some s ∧
       1 < (mapDelete (buildUniqueNames tr.history) p).length ∧
       (finalizeTracker st p tr).db.history =
         st.db.history ++ buildHistRows s
           (List.insertionSort nameFirstUseLe
             (mapDelete (buildUniqueNames tr.history) p))) := by
  unfold finalizeTracker
  by_cases h0 : p = "" ∨ p = "0" ∨ p = "undefined"
  · rw [if_pos h0]
    exact ⟨rfl, rfl, rfl, Or.inl rfl, Or.inl rfl⟩
  rw [if_neg h0]
  cases hm : mapGet st.memberIdMap p with
  | none => exact ⟨rfl, rfl, rfl, Or.inl rfl, Or.inl rfl⟩
  | some s =>
    dsimp only
    by_cases hz : s = 0
    · rw [if_pos hz]
      exact ⟨rfl, rfl, rfl, Or.inl rfl, Or.inl rfl⟩
    rw [if_neg hz]
    by_cases hle : (mapDelete (buildUniqueNames tr.history) p).length ≤ 1
    · rw [if_pos hle]
      exact ⟨rfl, rfl, rfl, Or.inr rfl, Or.inl rfl⟩
    · rw [if_neg hle]
      exact ⟨rfl, rfl, rfl, Or.inr rfl, Or.inr ⟨s, rfl, by omega, rfl⟩⟩

/-- Every row of a written history block carries the member id it was
written for. -/
theorem buildHistRows_memberId (sid : Nat) :
    ∀ l : List (String × (Int × Int)), ∀ r ∈ buildHistRows sid l,
      r.memberId = sid := by
  intro l
  induction l with
  | nil => intro r hr; exact absurd hr (List.not_mem_nil _)
  | cons e rest ih =>
    cases rest with
    | nil =>
      intro r hr
      rw [List.mem_singleton.mp hr]
    | cons next rest2 =>
      intro r hr
      rcases List.mem_cons.mp hr with h1 | h2
      · rw [h1]
      · exact ih r h2

/-- A nonempty history block starts with the row of its first entry. -/
theorem buildHistRows_head (sid : Nat) (next : String × (Int × Int))
    (rest2 : List (String × (Int × Int))) :
    ∃ o, (buildHistRows sid (next :: rest2)).head? =
      some ⟨sid, next.1, next.2.1, o⟩ := by
  cases rest2 with
  | nil => exact ⟨none, rfl⟩
  | cons n2 r3 => exact ⟨some n2.2.1, rfl⟩

/-- The rows written for a start-sorted name list are gapless and ordered:
each end timestamp is the next start timestamp. -/
theorem buildHistRows_chain (sid : Nat) :
    ∀ l : List (String × (Int × Int)), l.Sorted nameFirstUseLe →
      List.Chain' histAdjacent (buildHistRows sid l) := by
  intro l
  induction l with
  | nil => intro _; exact List.chain'_nil
  | cons e rest ih =>
    cases rest with
    | nil => intro _; exact List.chain'_singleton _
    | cons next rest2 =>
      intro hs
      refine List.chain'_cons'.mpr ⟨?_, ih hs.of_cons⟩
      intro b hb
      obtain ⟨o, ho⟩ := buildHistRows_head sid next rest2
      rw [ho] at hb
      rw [show b = (⟨sid, next.1, next.2.1, o⟩ : HistoryRow) from
        (Option.mem_some_iff.mp hb).symm]
      exact ⟨rfl, (List.pairwise_cons.mp hs).1 next (List.mem_cons_self _ _)⟩

/-- The last row of a history block has an open end. -/
theorem buildHistRows_last (sid : Nat) :
    ∀ l : List (String × (Int × Int)), ∀ r : HistoryRow,
      (buildHistRows sid l).getLast? = some r → r.endTs = none := by
  intro l
  induction l with
  | nil => intro r hr; cases hr
  | cons e rest ih =>
    cases rest with
    | nil =>
      intro r hr
      rw [← Option.some.inj hr]
      rfl
    | cons next rest2 =>
      intro r hr
      obtain ⟨hd, tl, hcons⟩ :
          ∃ hd tl, buildHistRows sid (next :: rest2) = hd :: tl := by
        cases rest2 with
        | nil => exact ⟨_, _, rfl⟩
        | cons n2 r3 => exact ⟨_, _, rfl⟩
      apply ih r
      have hr2 : ((⟨sid, e.1, e.2.1, some next.2.1⟩ : HistoryRow) ::
          buildHistRows sid (next :: rest2)).getLast? = some r := hr
      rw [hcons] at hr2
      rw [List.getLast?_cons_cons] at hr2
      rw [hcons]
      exact hr2

/-- A history block filtered by its own member id is itself. -/
theorem filter_block_self (s : Nat) (l : List (String × (Int × Int))) :
    (buildHistRows s l).filter (fun r => r.memberId == s) = buildHistRows s l :=
  List.filter_eq_self.mpr (fun r hr => by
    simpa using buildHistRows_memberId s l r hr)

/-- A history block filtered by a different member id is empty. -/
theorem filter_block_ne (s mid : Nat) (l : List (String × (Int × Int)))
    (hne : ¬s = mid) :
    (buildHistRows s l).filter (fun r => r.memberId == mid) = [] := by
  rw [List.filter_eq_nil_iff]
  intro r hr
  have hid := buildHistRows_memberId s l r hr
  simp [hid, hne]

/-- One finalizeTracker step whose platform id does not resolve to the
given member id leaves that member's history untouched. -/
theorem finalizeTracker_historyOf_ne (st : ImportState) (p : String)
    (tr : Tracker) (mid : Nat)
    (hne : ∀ s, mapGet st.memberIdMap p = some s → s ≠ mid) :
    historyOf (finalizeTracker st p tr) mid = historyOf st mid := by
  obtain ⟨_, _, _, _, hh⟩ := finalizeTracker_effects st p tr
  rcases hh with h1 | ⟨s, hs, _, h2⟩
  · unfold historyOf
    rw [h1]
  · unfold historyOf
    rw [h2, List.filter_append, filter_block_ne s mid _ (hne s hs), List.append_nil]

/-- One finalizeTracker step for a member with at most one remaining
distinct name writes no history rows. -/
theorem finalizeTracker_historyOf_le (st : ImportState) (p : String)
    (tr : Tracker) (mid : Nat)
    (hle : (mapDelete (buildUniqueNames tr.history) p).length ≤ 1) :
    historyOf (finalizeTracker st p tr) mid = historyOf st mid := by
  obtain ⟨_, _, _, _, hh⟩ := finalizeTracker_effects st p tr
  rcases hh with h1 | ⟨s, hs, hgt, h2⟩
  · unfold historyOf
    rw [h1]
  · exact absurd hgt (by omega)

/-- The finalize fold writes nothing for a member id whenever every
tracked entry that resolves to it has at most one remaining name. -/
theorem finalizeFold_historyOf (mid : Nat) :
    ∀ (l : List (String × Tracker)) (st : ImportState),
      (∀ e ∈ l, mapGet st.memberIdMap (e : String × Tracker).1 = some mid →
        (mapDelete (buildUniqueNames (e : String × Tracker).2.history)
          (e : String × Tracker).1).length ≤ 1) →
      historyOf (l.foldl (fun st e => finalizeTracker st e.1 e.2) st) mid =
        historyOf st mid := by
  intro l
  induction l with
  | nil => intro st _; rfl
  | cons e rest ih =>
    intro st hl
    rw [List.foldl_cons]
    obtain ⟨hmap, _, _, _, _⟩ := finalizeTracker_effects st e.1 e.2
    have hstep : historyOf (finalizeTracker st e.1 e.2) mid = historyOf st mid := by
      by_cases hcase : mapGet st.memberIdMap e.1 = some mid
      · exact finalizeTracker_historyOf_le st e.1 e.2 mid
          (hl e (List.mem_cons_self _ _) hcase)
      · refine finalizeTracker_historyOf_ne st e.1 e.2 mid ?_
        intro s hs hsmid
        exact hcase (by rw [hs, hsmid])
    have hrest := ih (finalizeTracker st e.1 e.2) (by
      intro e2 he2 hg
      rw [hmap] at hg
      exact hl e2 (List.mem_cons_of_mem _ he2) hg)
    rw [hrest, hstep]

/-- The finalize fold keeps every member's history gapless, ordered and
open-ended, provided the tracked platform ids are distinct, the row-id
cache is injective, and the ids of the remaining entries have no rows
yet. -/
theorem finalizeFold_chain (mid : Nat) :
    ∀ (l : List (String × Tracker)) (st : ImportState),
      (l.map Prod.fst).Nodup →
      (∀ p1 p2 s, mapGet st.memberIdMap p1 = some s →
        mapGet st.memberIdMap p2 = some s → p1 = p2) →
      (∀ e ∈ l, ∀ s, mapGet st.memberIdMap (e : String × Tracker).1 = some s →
        ∀ r ∈ st.db.history, r.memberId ≠ s) →
      List.Chain' histAdjacent (historyOf st mid) →
      (∀ r : HistoryRow, (historyOf st mid).getLast? = some r → r.endTs = none) →
      (List.Chain' histAdjacent
         (historyOf (l.foldl (fun st e => finalizeTracker st e.1 e.2) st) mid) ∧
       (∀ r : HistoryRow,
         (historyOf (l.foldl (fun st e => finalizeTracker st e.1 e.2) st)
           mid).getLast? = some r → r.endTs = none)) := by
  intro l
  induction l with
  | nil => intro st _ _ _ hc hlast; exact ⟨hc, hlast⟩
  | cons e rest ih =>
    intro st hnd hinj hdisj hc hlast
    rw [List.foldl_cons]
    obtain ⟨hmap, _, _, _, hh⟩ := finalizeTracker_effects st e.1 e.2
    have hmain : List.Chain' histAdjacent
        (historyOf (finalizeTracker st e.1 e.2) mid) ∧
        (∀ r : HistoryRow,
          (historyOf (finalizeTracker st e.1 e.2) mid).getLast? = some r →
            r.endTs = none) := by
      rcases hh with h1 | ⟨s, hs, _, h2⟩
      · have heq : historyOf (finalizeTracker st e.1 e.2) mid = historyOf st mid := by
          unfold historyOf
          rw [h1]
        rw [heq]
        exact ⟨hc, hlast⟩
      · by_cases hsm : s = mid
        · subst hsm
          have hemp : st.db.history.filter (fun r => r.memberId == s) = [] := by
            rw [List.filter_eq_nil_iff]
            intro r hr
            simpa using hdisj e (List.mem_cons_self _ _) s hs r hr
          have heq : historyOf (finalizeTracker st e.1 e.2) s =
              buildHistRows s (List.insertionSort nameFirstUseLe
                (mapDelete (buildUniqueNames e.2.history) e.1)) := by
            unfold historyOf
            rw [h2, List.filter_append, hemp, List.nil_append]
            exact filter_block_self s _
          rw [heq]
          exact ⟨buildHistRows_chain s _ (List.sorted_insertionSort _ _),
            buildHistRows_last s _⟩
        · have heq : historyOf (finalizeTracker st e.1 e.2) mid = historyOf st mid := by
            unfold historyOf
            rw [h2, List.filter_append, filter_block_ne s mid _ hsm, List.append_nil]
          rw [heq]
          exact ⟨hc, hlast⟩
    have hdisj2 : ∀ e2 ∈ rest, ∀ s2,
        mapGet (finalizeTracker st e.1 e.2).memberIdMap
          (e2 : String × Tracker).1 = some s2 →
        ∀ r ∈ (finalizeTracker st e.1 e.2).db.history, r.memberId ≠ s2 := by
      intro e2 he2 s2 hg r hr
      rw [hmap] at hg
      rcases hh with h1 | ⟨s, hs, _, h2⟩
      · rw [h1] at hr
        exact hdisj e2 (List.mem_cons_of_mem _ he2) s2 hg r hr
      · rw [h2] at hr
        rcases List.mem_append.mp hr with hr1 | hr2
        · exact hdisj e2 (List.mem_cons_of_mem _ he2) s2 hg r hr1
        · have hrid := buildHistRows_memberId s _ r hr2
          rw [hrid]
          intro hss
          have he12 : e.1 = e2.1 := hinj e.1 e2.1 s hs (by rw [← hss] at hg; exact hg)
          have hkm : e2.1 ∈ rest.map Prod.fst := List.mem_map.mpr ⟨e2, he2, rfl⟩
          rw [← he12] at hkm
          exact (List.nodup_cons.mp hnd).1 hkm
    exact ih (finalizeTracker st e.1 e.2) (List.nodup_cons.mp hnd).2
      (by
        intro p1 p2 s hp1 hp2
        rw [hmap] at hp1 hp2
        exact hinj p1 p2 s hp1 hp2)
      hdisj2 hmain.1 hmain.2

/-- Setting a key either keeps the key list (present key) or appends the
key (absent key). -/
theorem mapSet_keys {α β : Type} [DecidableEq α] (l : List (α × β)) (k : α)
    (v : β) :
    (mapSet l k v).map Prod.fst =
      (if k ∈ l.map Prod.fst then l.map Prod.fst else l.map Prod.fst ++ [k]) := by
  induction l with
  | nil => simp [mapSet]
  | cons e rest ih =>
    unfold mapSet
    by_cases he : e.1 = k
    · rw [if_pos he, if_pos (by simp [he])]
      simp [he]
    · rw [if_neg he]
      simp only [List.map_cons]
      rw [ih]
      by_cases hk : k ∈ rest.map Prod.fst
      · rw [if_pos hk, if_pos (by simp [hk])]
      · rw [if_neg hk, if_neg (by
          simp only [List.map_cons, List.mem_cons]
          rintro (h1 | h2)
          · exact he h1.symm
          · exact hk h2)]
        simp

/-- Appending one entry to a tracked history steps the unique-name map by
one first/last update. -/
theorem buildUniqueNames_append (h : List (String × Int)) (e : String × Int) :
    buildUniqueNames (h ++ [e]) =
      (match mapGet (buildUniqueNames h) e.1 with
       | none => mapSet (buildUniqueNames h) e.1 (e.2, e.2)
       | some x => mapSet (buildUniqueNames h) e.1 (x.1, e.2)) := by
  unfold buildUniqueNames
  rw [List.foldl_append]
  rfl

/-- The key list of the unique-name map after one appended entry: the name
is appended exactly when it is new. -/
theorem buildUniqueNames_append_keys (h : List (String × Int)) (e : String × Int) :
    (buildUniqueNames (h ++ [e])).map Prod.fst =
      (if e.1 ∈ (buildUniqueNames h).map Prod.fst
       then (buildUniqueNames h).map Prod.fst
       else (buildUniqueNames h).map Prod.fst ++ [e.1]) := by
  rw [buildUniqueNames_append]
  cases hm : mapGet (buildUniqueNames h) e.1 with
  | none =>
    dsimp only
    rw [mapSet_keys]
  | some x =>
    dsimp only
    rw [mapSet_keys]

/-- On a duplicate-free association list, every entry is retrieved by its
key. -/
theorem mapGet_of_mem_nodup {α β : Type} [DecidableEq α] (l : List (α × β))
    (e : α × β) (hnd : (l.map Prod.fst).Nodup) (he : e ∈ l) :
    mapGet l e.1 = some e.2 := by
  induction l with
  | nil => exact absurd he (List.not_mem_nil _)
  | cons e0 rest ih =>
    rcases List.mem_cons.mp he with h1 | h2
    · subst h1
      unfold mapGet
      rw [if_pos rfl]
    · unfold mapGet
      by_cases h : e0.1 = e.1
      · exfalso
        have hkm : e.1 ∈ rest.map Prod.fst := List.mem_map.mpr ⟨e, h2, rfl⟩
        rw [← h] at hkm
        exact (List.nodup_cons.mp hnd).1 hkm
      · rw [if_neg h]
        exact ih (List.nodup_cons.mp hnd).2 h2

/-- The insert-or-ignore step never touches the nickname map or the
tracker. -/
theorem insertMemberOrIgnore_aux (st : ImportState) (p n : String)
    (k : Option String) :
    (insertMemberOrIgnore st p n k).memberNicknameMap = st.memberNicknameMap ∧
    (insertMemberOrIgnore st p n k).nicknameTracker = st.nicknameTracker := by
  unfold insertMemberOrIgnore
  split
  · exact ⟨rfl, rfl⟩
  · exact ⟨rfl, rfl⟩

/-- The ensure-member step never touches the nickname map or the
tracker. -/
theorem ensureMember_aux (st : ImportState) (p n : String) (k : Option String) :
    (ensureMember st p n k).memberNicknameMap = st.memberNicknameMap ∧
    (ensureMember st p n k).nicknameTracker = st.nicknameTracker := by
  unfold ensureMember
  cases h : getMemberRowId (insertMemberOrIgnore st p n k) p with
  | some rid =>
    dsimp only
    exact insertMemberOrIgnore_aux st p n k
  | none =>
    dsimp only
    exact insertMemberOrIgnore_aux st p n k

/-- Nickname tracking leaves the entries of other platform ids in
place. -/
theorem trackNickname_get_ne (st : ImportState) (msg : ParsedMessage) (ts : Int)
    (p : String) (hp : p ≠ msg.senderPlatformId) :
    mapGet (trackNickname st msg ts).nicknameTracker p =
      mapGet st.nicknameTracker p := by
  unfold trackNickname
  cases h : mapGet st.nicknameTracker msg.senderPlatformId with
  | none =>
    dsimp only
    by_cases hr : isRealFor st.memberNicknameMap msg = true
    · rw [if_pos hr]
      exact mapGet_mapSet_ne _ _ _ _ hp
    · rw [if_neg hr]
  | some tracker =>
    dsimp only
    by_cases hc : tracker.currentName ≠ senderNameOf msg ∧
        isRealFor st.memberNicknameMap msg = true
    · rw [if_pos hc]
      exact mapGet_mapSet_ne _ _ _ _ hp
    · rw [if_neg hc]
      exact mapGet_mapSet_ne _ _ _ _ hp

/-- The tracking step of one accepted message matches the observation
replay step: the nickname map is unchanged and the tracked distinct names
stay aligned with the observed ones. -/
theorem trackNickname_obs (pid : String) (S : ImportState)
    (ob : List (String × String) × List String) (msg : ParsedMessage) (ts : Int)
    (hval : isValidMsg msg = true) (hpid : msg.senderPlatformId = pid)
    (hmnm : S.memberNicknameMap = ob.1)
    (htr : match mapGet S.nicknameTracker pid with
      | none => ob.2 = []
      | some tr => (buildUniqueNames tr.history).map Prod.fst = ob.2 ∧
          tr.currentName ∈ ob.2) :
    ObsInv pid (trackNickname S msg ts) (obsMsgStep pid ob msg) := by
  subst hpid
  have hcondR : isRealFor S.memberNicknameMap msg = true →
      obsMsgStep msg.senderPlatformId ob msg =
      (ob.1, if senderNameOf msg ∈ ob.2 then ob.2
             else ob.2 ++ [senderNameOf msg]) := by
    intro hr
    unfold obsMsgStep
    rw [if_pos ⟨hval, rfl, by rw [← hmnm]; exact hr⟩]
  have hcondN : isRealFor S.memberNicknameMap msg = false →
      obsMsgStep msg.senderPlatformId ob msg = ob := by
    intro hr
    unfold obsMsgStep
    rw [if_neg (by
      rintro ⟨-, -, hreal⟩
      rw [← hmnm, hr] at hreal
      exact Bool.false_ne_true hreal)]
  unfold trackNickname
  cases hX : mapGet S.nicknameTracker msg.senderPlatformId with
  | none =>
    rw [hX] at htr
    dsimp only at htr
    dsimp only
    by_cases hr : isRealFor S.memberNicknameMap msg = true
    · rw [if_pos hr, hcondR hr]
      refine ⟨hmnm, ?_⟩
      dsimp only
      rw [mapGet_mapSet_self]
      rw [htr]
      constructor
      · show [senderNameOf msg] = _
        simp
      · show senderNameOf msg ∈ _
        simp
    · rw [if_neg hr, hcondN (by
        cases hreal : isRealFor S.memberNicknameMap msg
        · rfl
        · exact absurd hreal hr)]
      refine ⟨hmnm, ?_⟩
      rw [hX]
      exact htr
  | some tr =>
    rw [hX] at htr
    dsimp only at htr
    obtain ⟨hkeys, hcur⟩ := htr
    dsimp only
    by_cases hc : tr.currentName ≠ senderNameOf msg ∧
        isRealFor S.memberNicknameMap msg = true
    · rw [if_pos hc, hcondR hc.2]
      refine ⟨hmnm, ?_⟩
      dsimp only
      rw [mapGet_mapSet_self]
      dsimp only
      constructor
      · rw [show (tr.history ++ [(senderNameOf msg, ts)]) =
            tr.history ++ [(senderNameOf msg, ts)] from rfl,
          buildUniqueNames_append_keys, hkeys]
      · by_cases hmem : senderNameOf msg ∈ ob.2
        · rw [if_pos hmem]
          exact hmem
        · rw [if_neg hmem]
          exact List.mem_append_right _ (List.mem_singleton_self _)
    · rw [if_neg hc]
      by_cases hr : isRealFor S.memberNicknameMap msg = true
      · have hcx : tr.currentName = senderNameOf msg := by
          by_contra hne
          exact hc ⟨hne, hr⟩
        have hmem : senderNameOf msg ∈ ob.2 := by
          rw [← hcx]
          exact hcur
        rw [hcondR hr]
        refine ⟨hmnm, ?_⟩
        dsimp only
        rw [mapGet_mapSet_self]
        dsimp only
        rw [if_pos hmem]
        exact ⟨hkeys, hcur⟩
      · have hrf : isRealFor S.memberNicknameMap msg = false := by
          cases hreal : isRealFor S.memberNicknameMap msg
          · rfl
          · exact absurd hreal hr
        rw [hcondN hrf]
        refine ⟨hmnm, ?_⟩
        dsimp only
        rw [mapGet_mapSet_self]
        exact ⟨hkeys, hcur⟩

/-- The nickname-map effect of handleMembers is the shared per-member
step, and the tracker is untouched. -/
theorem handleMembers_mnm (ms : List ParsedMember) : ∀ st : ImportState,
    (handleMembers st ms).memberNicknameMap =
      ms.foldl nickMapStep st.memberNicknameMap ∧
    (handleMembers st ms).nicknameTracker = st.nicknameTracker := by
  induction ms with
  | nil => exact fun st => ⟨rfl, rfl⟩
  | cons m rest ih =>
    intro st
    have hfold : handleMembers st (m :: rest) =
        handleMembers (match nickOf m with
          | some n =>
            { ensureMember st m.platformId m.name (nickOf m) with
              memberNicknameMap :=
                mapSet (ensureMember st m.platformId m.name (nickOf m)).memberNicknameMap
                  m.platformId n }
          | none => ensureMember st m.platformId m.name (nickOf m)) rest := rfl
    rw [hfold, List.foldl_cons]
    cases hn : nickOf m with
    | some n =>
      obtain ⟨ha1, ha2⟩ := ensureMember_aux st m.platformId m.name (some n)
      have hstep : mapSet
          (ensureMember st m.platformId m.name (some n)).memberNicknameMap
          m.platformId n = nickMapStep st.memberNicknameMap m := by
        rw [ha1]
        unfold nickMapStep
        rw [hn]
      have hih := ih
        { ensureMember st m.platformId m.name (some n) with
          memberNicknameMap :=
            mapSet (ensureMember st m.platformId m.name (some n)).memberNicknameMap
              m.platformId n }
      constructor
      · exact hih.1.trans (congrArg (fun x => rest.foldl nickMapStep x) hstep)
      · exact hih.2.trans ha2
    | none =>
      obtain ⟨ha1, ha2⟩ := ensureMember_aux st m.platformId m.name none
      have hstep : (ensureMember st m.platformId m.name none).memberNicknameMap =
          nickMapStep st.memberNicknameMap m := by
        rw [ha1]
        unfold nickMapStep
        rw [hn]
      have hih := ih (ensureMember st m.platformId m.name none)
      constructor
      · exact hih.1.trans (congrArg (fun x => rest.foldl nickMapStep x) hstep)
      · exact hih.2.trans ha2

/-- The core of a valid message with a resolved sender id is exactly the
tracking step on the state with the message row appended. -/
theorem handleMessageCore_track (S : ImportState) (msg : ParsedMessage)
    (sid : Nat) (ts ty : Int)
    (hsid : mapGet S.memberIdMap msg.senderPlatformId = some sid)
    (hts : msg.timestamp = some ts) (hty : msg.msgType = some ty) :
    handleMessageCore S msg = trackNickname
      { S with
        db := { S.db with
          messages := S.db.messages ++ [⟨S.nextMessageId, sid, ts, ty, msg.content⟩] }
        nextMessageId := S.nextMessageId + 1 } msg ts := by
  unfold handleMessageCore
  rw [hsid, hts, hty]

/-- Processing one message preserves the observation invariant. -/
theorem obsInv_msg (pid : String) (st : ImportState)
    (ob : List (String × String) × List String) (msg : ParsedMessage)
    (hwf : ImportWf st) (hinv : ObsInv pid st ob) :
    ObsInv pid (handleMessage st msg) (obsMsgStep pid ob msg) := by
  obtain ⟨hnm, htr⟩ := hinv
  by_cases hv : isValidMsg msg = true
  case neg =>
    have h1 : handleMessage st msg = st := by
      unfold handleMessage
      rw [if_pos (by simp [hv])]
    have h2 : obsMsgStep pid ob msg = ob := by
      unfold obsMsgStep
      rw [if_neg (by rintro ⟨hval, -, -⟩; exact hv hval)]
    rw [h1, h2]
    exact ⟨hnm, htr⟩
  have hbr :
      (if mapHas st.memberIdMap msg.senderPlatformId = true then st
        else ensureMember st msg.senderPlatformId (senderNameOf msg)
          none).memberNicknameMap = st.memberNicknameMap ∧
      (if mapHas st.memberIdMap msg.senderPlatformId = true then st
        else ensureMember st msg.senderPlatformId (senderNameOf msg)
          none).nicknameTracker = st.nicknameTracker ∧
      ∃ sid, mapGet (if mapHas st.memberIdMap msg.senderPlatformId = true then st
        else ensureMember st msg.senderPlatformId (senderNameOf msg)
          none).memberIdMap msg.senderPlatformId = some sid := by
    by_cases hh : mapHas st.memberIdMap msg.senderPlatformId = true
    · rw [if_pos hh]
      refine ⟨rfl, rfl, ?_⟩
      unfold mapHas at hh
      cases hg : mapGet st.memberIdMap msg.senderPlatformId with
      | none => rw [hg] at hh; cases hh
      | some sid => exact ⟨sid, rfl⟩
    · rw [if_neg hh]
      obtain ⟨ha1, ha2⟩ :=
        ensureMember_aux st msg.senderPlatformId (senderNameOf msg) none
      refine ⟨ha1, ha2, ?_⟩
      obtain ⟨-, -, -, -, -, h6, -⟩ :=
        ensureMember_wf st msg.senderPlatformId (senderNameOf msg) none hwf
      unfold mapHas at h6
      cases hg : mapGet (ensureMember st msg.senderPlatformId (senderNameOf msg)
          none).memberIdMap msg.senderPlatformId with
      | none => rw [hg] at h6; cases h6
      | some sid => exact ⟨sid, rfl⟩
  obtain ⟨h2nm, h2tr, sid, hsid⟩ := hbr
  obtain ⟨ts, hts⟩ : ∃ ts, msg.timestamp = some ts := by
    cases hc : msg.timestamp with
    | none =>
      exfalso
      unfold isValidMsg at hv
      rw [hc] at hv
      simp at hv
    | some ts => exact ⟨ts, rfl⟩
  obtain ⟨ty, hty⟩ : ∃ ty, msg.msgType = some ty := by
    cases hc : msg.msgType with
    | none =>
      exfalso
      unfold isValidMsg at hv
      rw [hc] at hv
      simp at hv
    | some ty => exact ⟨ty, rfl⟩
  have hdec : handleMessage st msg = trackNickname
      { (if mapHas st.memberIdMap msg.senderPlatformId = true then st
         else ensureMember st msg.senderPlatformId (senderNameOf msg) none) with
        db := { (if mapHas st.memberIdMap msg.senderPlatformId = true then st
            else ensureMember st msg.senderPlatformId (senderNameOf msg)
              none).db with
          messages := (if mapHas st.memberIdMap msg.senderPlatformId = true then st
            else ensureMember st msg.senderPlatformId (senderNameOf msg)
              none).db.messages ++
            [⟨(if mapHas st.memberIdMap msg.senderPlatformId = true then st
               else ensureMember st msg.senderPlatformId (senderNameOf msg)
                 none).nextMessageId, sid, ts, ty, msg.content⟩] }
        nextMessageId := (if mapHas st.memberIdMap msg.senderPlatformId = true then st
          else ensureMember st msg.senderPlatformId (senderNameOf msg)
            none).nextMessageId + 1 } msg ts := by
    unfold handleMessage
    rw [if_neg (by simp [hv])]
    exact handleMessageCore_track _ msg sid ts ty hsid hts hty
  rw [hdec]
  by_cases hp : msg.senderPlatformId = pid
  · refine trackNickname_obs pid _ ob msg ts hv hp ?_ ?_
    · show (if mapHas st.memberIdMap msg.senderPlatformId = true then st
        else ensureMember st msg.senderPlatformId (senderNameOf msg)
          none).memberNicknameMap = ob.1
      rw [h2nm]
      exact hnm
    · show (match mapGet (if mapHas st.memberIdMap msg.senderPlatformId = true then st
        else ensureMember st msg.senderPlatformId (senderNameOf msg)
          none).nicknameTracker pid with
        | none => ob.2 = []
        | some tr => (buildUniqueNames tr.history).map Prod.fst = ob.2 ∧
            tr.currentName ∈ ob.2)
      rw [h2tr]
      exact htr
  · have hobs : obsMsgStep pid ob msg = ob := by
      unfold obsMsgStep
      rw [if_neg (by rintro ⟨-, hpe, -⟩; exact hp hpe)]
    rw [hobs]
    obtain ⟨k1, k2, k3, k4, k5, k6⟩ := trackNickname_effects
      { (if mapHas st.memberIdMap msg.senderPlatformId = true then st
         else ensureMember st msg.senderPlatformId (senderNameOf msg) none) with
        db := { (if mapHas st.memberIdMap msg.senderPlatformId = true then st
            else ensureMember st msg.senderPlatformId (senderNameOf msg)
              none).db with
          messages := (if mapHas st.memberIdMap msg.senderPlatformId = true then st
            else ensureMember st msg.senderPlatformId (senderNameOf msg)
              none).db.messages ++
            [⟨(if mapHas st.memberIdMap msg.senderPlatformId = true then st
               else ensureMember st msg.senderPlatformId (senderNameOf msg)
                 none).nextMessageId, sid, ts, ty, msg.content⟩] }
        nextMessageId := (if mapHas st.memberIdMap msg.senderPlatformId = true then st
          else ensureMember st msg.senderPlatformId (senderNameOf msg)
            none).nextMessageId + 1 } msg ts
    refine ⟨?_, ?_⟩
    · rw [k3]
      show (if mapHas st.memberIdMap msg.senderPlatformId = true then st
        else ensureMember st msg.senderPlatformId (senderNameOf msg)
          none).memberNicknameMap = ob.1
      rw [h2nm]
      exact hnm
    · rw [trackNickname_get_ne _ msg ts pid (fun he => hp he.symm)]
      show (match mapGet (if mapHas st.memberIdMap msg.senderPlatformId = true then st
        else ensureMember st msg.senderPlatformId (senderNameOf msg)
          none).nicknameTracker pid with
        | none => ob.2 = []
        | some tr => (buildUniqueNames tr.history).map Prod.fst = ob.2 ∧
            tr.currentName ∈ ob.2)
      rw [h2tr]
      exact htr

/-- Processing one batch preserves the observation invariant. -/
theorem obsInv_batch (pid : String) (batch : List ParsedMessage) :
    ∀ (st : ImportState) (ob : List (String × String) × List String),
      ImportWf st → ObsInv pid st ob →
      ObsInv pid (batch.foldl handleMessage st)
        (batch.foldl (obsMsgStep pid) ob) := by
  induction batch with
  | nil => exact fun st ob _ h => h
  | cons m rest ih =>
    intro st ob hwf hinv
    exact ih (handleMessage st m) (obsMsgStep pid ob m)
      (handleMessage_wf st m hwf).1 (obsInv_msg pid st ob m hwf hinv)

/-- Processing one parser event preserves the observation invariant. -/
theorem obsInv_event (pid : String) (st : ImportState)
    (ob : List (String × String) × List String) (ev : ParseEvent)
    (hwf : ImportWf st) (hinv : ObsInv pid st ob) :
    ObsInv pid (handleEvent st ev) (observeEvent pid ob ev) := by
  cases ev with
  | progress s => exact hinv
  | meta m => exact hinv
  | done mc nc => exact hinv
  | members ms =>
    obtain ⟨hnm, htr⟩ := hinv
    obtain ⟨h1, h2⟩ := handleMembers_mnm ms st
    refine ⟨?_, ?_⟩
    · show (handleMembers st ms).memberNicknameMap = ms.foldl nickMapStep ob.1
      rw [h1, hnm]
    · show (match mapGet (handleMembers st ms).nicknameTracker pid with
        | none => (ms.foldl nickMapStep ob.1, ob.2).2 = []
        | some tr => (buildUniqueNames tr.history).map Prod.fst =
              (ms.foldl nickMapStep ob.1, ob.2).2 ∧
            tr.currentName ∈ (ms.foldl nickMapStep ob.1, ob.2).2)
      rw [h2]
      exact htr
  | messages batch => exact obsInv_batch pid batch st ob hwf hinv

/-- The whole event loop preserves the observation invariant. -/
theorem obsInv_fold (pid : String) (events : List ParseEvent) :
    ∀ (st : ImportState) (ob : List (String × String) × List String),
      ImportWf st → ObsInv pid st ob →
      ObsInv pid (events.foldl handleEvent st)
        (events.foldl (observeEvent pid) ob) := by
  induction events with
  | nil => exact fun st ob _ h => h
  | cons ev rest ih =>
    intro st ob hwf hinv
    exact ih (handleEvent st ev) (observeEvent pid ob ev)
      (handleEvent_wf st ev hwf).1 (obsInv_event pid st ob ev hwf hinv)

/-- After the import loop, the tracked distinct real names of every
platform id are exactly the observed ones. -/
theorem obsInv_run (pid : String) (events : List ParseEvent) :
    ObsInv pid (runImport events)
      (events.foldl (observeEvent pid) ([], [])) :=
  obsInv_fold pid events importInit ([], []) importInit_wf ⟨rfl, rfl⟩

/-- C3: after any import (the event loop followed by the nickname-history
materialization), every member's history rows, in stored order, are
gapless and ordered by start timestamp (each end timestamp equals the next
start timestamp), the last row's end is open/null, and a member whose
platform id ever saw at most one distinct accepted real name has zero
history rows. -/
theorem nickname_history_invariant (events : List ParseEvent) (mid : Nat)
    (pid : String) :
    List.Chain' histAdjacent (historyOf (importRun events) mid) ∧
    (∀ r : HistoryRow,
      (historyOf (importRun events) mid).getLast? = some r → r.endTs = none) ∧
    (mapGet (runImport events).memberIdMap pid = some mid →
      (observedRealNames events pid).length ≤ 1 →
      historyOf (importRun events) mid = []) := by
  obtain ⟨hwf, hhist, hnd⟩ := runImport_wf events
  have hinj : ∀ p1 p2 s, mapGet (runImport events).memberIdMap p1 = some s →
      mapGet (runImport events).memberIdMap p2 = some s → p1 = p2 :=
    fun p1 p2 s h1 h2 => wf_map_inj (runImport events) p1 p2 s hwf h1 h2
  have hdisj : ∀ e ∈ (runImport events).nicknameTracker, ∀ s,
      mapGet (runImport events).memberIdMap (e : String × Tracker).1 = some s →
      ∀ r ∈ (runImport events).db.history, r.memberId ≠ s := by
    intro e he s hs r hr
    rw [hhist] at hr
    exact absurd hr (List.not_mem_nil _)
  have hemp : historyOf (runImport events) mid = [] := by
    unfold historyOf
    rw [hhist]
    rfl
  obtain ⟨hch, hlast⟩ := finalizeFold_chain mid (runImport events).nicknameTracker
    (runImport events) hnd hinj hdisj
    (by rw [hemp]; exact List.chain'_nil)
    (by rw [hemp]; intro r hr; cases hr)
  refine ⟨hch, hlast, ?_⟩
  intro hmap hobs
  have hle : ∀ e ∈ (runImport events).nicknameTracker,
      mapGet (runImport events).memberIdMap (e : String × Tracker).1 = some mid →
      (mapDelete (buildUniqueNames (e : String × Tracker).2.history)
        (e : String × Tracker).1).length ≤ 1 := by
    intro e he hg
    have hp : e.1 = pid := hinj e.1 pid mid hg hmap
    have hget : mapGet (runImport events).nicknameTracker e.1 = some e.2 :=
      mapGet_of_mem_nodup _ e hnd he
    rw [hp] at hget
    obtain ⟨-, htr⟩ := obsInv_run pid events
    rw [hget] at htr
    dsimp only at htr
    obtain ⟨hkeys, -⟩ := htr
    have hlen : (buildUniqueNames e.2.history).length ≤ 1 := by
      have hlm := congrArg List.length hkeys
      rw [List.length_map] at hlm
      rw [hlm]
      exact hobs
    rw [hp]
    calc (mapDelete (buildUniqueNames e.2.history) pid).length
        ≤ (buildUniqueNames e.2.history).length := mapDelete_length_le _ _
      _ ≤ 1 := hlen
  have hfold := finalizeFold_historyOf mid (runImport events).nicknameTracker
    (runImport events) hle
  exact hfold.trans hemp

/-- C3 witness: the invariant applied to the import of a concrete file,
for the member that only ever used one real name. -/
theorem nickname_history_invariant_witness :
    mapGet (runImport (parseChatLab okFile 2)).memberIdMap "B" = some 2 ∧
    (observedRealNames (parseChatLab okFile 2) "B").length ≤ 1 ∧
    historyOf (importRun (parseChatLab okFile 2)) 2 = [] :=
  ⟨by decide, by decide,
    (nickname_history_invariant (parseChatLab okFile 2) 2 "B").2.2
      (by decide) (by decide)⟩

/-- One member row per parsed member. -/
theorem buildMemberRows_length : ∀ (ms : List ParsedMember) (nid : Nat),
    (buildMemberRows nid ms).length = ms.length := by
  intro ms
  induction ms with
  | nil => intro nid; rfl
  | cons m rest ih =>
    intro nid
    show (buildMemberRows nid (m :: rest)).length = (m :: rest).length
    rw [show buildMemberRows nid (m :: rest) =
      ⟨nid, m.platformId, m.name, nickOf m⟩ :: buildMemberRows (nid + 1) rest
      from rfl]
    rw [List.length_cons, List.length_cons, ih (nid + 1)]

/-- Every created member row takes its name from its parsed member. -/
theorem buildMemberRows_names : ∀ (ms : List ParsedMember) (nid : Nat),
    ∀ r ∈ buildMemberRows nid ms, ∃ m ∈ ms, (r : MemberRow).name = m.name := by
  intro ms
  induction ms with
  | nil => intro nid r hr; exact absurd hr (List.not_mem_nil _)
  | cons m rest ih =>
    intro nid r hr
    rcases List.mem_cons.mp hr with h1 | h2
    · exact ⟨m, List.mem_cons_self _ _, by rw [h1]⟩
    · obtain ⟨m2, hm2, hname⟩ := ih (nid + 1) r h2
      exact ⟨m2, List.mem_cons_of_mem _ hm2, hname⟩

/-- Every tracked current name after one tracking step satisfies any
predicate holding for the previous current names and the message's sender
name. -/
theorem trackNickname_names (P : String → Prop) (st : ImportState)
    (msg : ParsedMessage) (ts : Int)
    (hst : ∀ e ∈ st.nicknameTracker, P (e : String × Tracker).2.currentName)
    (hmsg : P (senderNameOf msg)) :
    ∀ e ∈ (trackNickname st msg ts).nicknameTracker,
      P (e : String × Tracker).2.currentName := by
  unfold trackNickname
  cases h : mapGet st.nicknameTracker msg.senderPlatformId with
  | none =>
    dsimp only
    by_cases hr : isRealFor st.memberNicknameMap msg = true
    · rw [if_pos hr]
      exact mapSet_forall _ st.nicknameTracker _ _ hst hmsg
    · rw [if_neg hr]
      exact hst
  | some tr =>
    dsimp only
    by_cases hc : tr.currentName ≠ senderNameOf msg ∧
        isRealFor st.memberNicknameMap msg = true
    · rw [if_pos hc]
      exact mapSet_forall _ st.nicknameTracker _ _ hst hmsg
    · rw [if_neg hc]
      refine mapSet_forall _ st.nicknameTracker _ _ hst ?_
      exact hst (msg.senderPlatformId, tr) (mapGet_eq_some_mem _ _ _ h)

/-- The done-count fold skips every event that is not a done event. -/
theorem doneCounts_skip (l : List ParseEvent) (acc : Option (Nat × Nat))
    (h : ∀ e ∈ l, isDoneEv e = false) :
    l.foldr (fun ev acc =>
      match ev with
      | .done mc nc => some (mc, nc)
      | _ => acc) acc = acc := by
  induction l with
  | nil => rfl
  | cons e rest ih =>
    rw [List.foldr_cons]
    have he := h e (List.mem_cons_self _ _)
    have hrest := ih (fun e2 h2 => h e2 (List.mem_cons_of_mem _ h2))
    cases e with
    | done mc nc => cases he
    | progress s => exact hrest
    | meta m => exact hrest
    | members ms => exact hrest
    | messages b => exact hrest

/-- The counts carried by the done event of a parse run: the raw message
count and the emitted member count. -/
theorem doneCounts_parse (file : ChatLabFile) (bs : Nat) :
    doneCounts (parseChatLab file bs) =
      some (file.messages.length, (parsedMembersOf file).length) := by
  unfold doneCounts
  rw [parseChatLab_shape file bs]
  rw [List.foldr_cons, List.foldr_cons]
  unfold parseTail
  rw [List.foldr_append, List.foldr_append]
  have hinner : ([ParseEvent.progress "done",
      ParseEvent.done file.messages.length (parsedMembersOf file).length] :
        List ParseEvent).foldr (fun ev acc =>
          match ev with
          | .done mc nc => some (mc, nc)
          | _ => acc) none =
      some (file.messages.length, (parsedMembersOf file).length) := rfl
  rw [hinner]
  rw [doneCounts_skip _ _ (by
    intro e he
    split at he
    · rw [List.mem_singleton.mp he]
      rfl
    · exact absurd he (List.not_mem_nil _))]
  rw [doneCounts_skip _ _ (by
    intro e he
    obtain ⟨c, -, hc⟩ := List.mem_map.mp he
    rw [← hc]
    rfl)]

/-- Folding the batch events equals folding the flattened messages. -/
theorem foldl_messages (chunks : List (List ParsedMessage)) : ∀ st : ImportState,
    (chunks.map ParseEvent.messages).foldl handleEvent st =
      chunks.flatten.foldl handleMessage st := by
  induction chunks with
  | nil => exact fun st => rfl
  | cons c rest ih =>
    intro st
    rw [List.map_cons, List.foldl_cons, List.flatten_cons, List.foldl_append]
    exact ih (c.foldl handleMessage st)

/-- The import loop over a parse run is the member handler followed by the
message fold. -/
theorem runImport_parse (file : ChatLabFile) (bs : Nat) :
    runImport (parseChatLab file bs) =
      (parsedMessagesOf file).foldl handleMessage
        (handleMembers importInit (parsedMembersOf file)) := by
  unfold runImport
  rw [parseChatLab_shape file bs]
  rw [List.foldl_cons, List.foldl_cons]
  show (parseTail file bs).foldl handleEvent importInit = _
  unfold parseTail
  rw [List.foldl_append, List.foldl_append]
  have hC : ∀ x : ImportState, ([ParseEvent.progress "done",
      ParseEvent.done file.messages.length (parsedMembersOf file).length] :
        List ParseEvent).foldl handleEvent x = x := fun x => rfl
  rw [hC]
  have hA : ((if (parsedMembersOf file).length > 0 then
      [ParseEvent.members (parsedMembersOf file)] else []) :
        List ParseEvent).foldl handleEvent importInit =
      handleMembers importInit (parsedMembersOf file) := by
    split
    · rfl
    next hlen =>
      have hnil : parsedMembersOf file = [] := by
        cases hms : parsedMembersOf file with
        | nil => rfl
        | cons a b => rw [hms] at hlen; exact absurd (by simp) hlen
      rw [hnil]
      rfl
  rw [hA]
  rw [foldl_messages]
  rw [chunked_flatten]

/-- Handling members over a state containing none of their platform ids
appends exactly one fresh row per member, in order. -/
theorem handleMembers_fresh (ms : List ParsedMember) : ∀ st : ImportState,
    (ms.map ParsedMember.platformId).Nodup →
    (∀ m ∈ ms, st.db.members.find? (fun r => r.platformId == m.platformId) = none) →
    (handleMembers st ms).db.members =
      st.db.members ++ buildMemberRows st.nextMemberId ms := by
  induction ms with
  | nil =>
    intro st _ _
    show st.db.members = st.db.members ++ buildMemberRows st.nextMemberId []
    rw [show buildMemberRows st.nextMemberId [] = [] from rfl, List.append_nil]
  | cons m rest ih =>
    intro st hnd hfr
    rw [List.map_cons] at hnd
    have hnd1 := (List.nodup_cons.mp hnd).1
    have hnd2 := (List.nodup_cons.mp hnd).2
    have hget : getMemberRowId st m.platformId = none := by
      unfold getMemberRowId
      rw [hfr m (List.mem_cons_self _ _)]
      rfl
    have hens := ensureMember_fresh st m.platformId m.name (nickOf m) hget
    have hfr2 : ∀ m2 ∈ rest,
        (st.db.members ++
          [(⟨st.nextMemberId, m.platformId, m.name, nickOf m⟩ : MemberRow)]).find?
          (fun r => r.platformId == m2.platformId) = none := by
      intro m2 hm2
      have hne : m.platformId ≠ m2.platformId := by
        intro he
        have hmm2 : m2.platformId ∈ rest.map ParsedMember.platformId :=
          List.mem_map.mpr ⟨m2, hm2, rfl⟩
        rw [← he] at hmm2
        exact hnd1 hmm2
      rw [List.find?_append, hfr m2 (List.mem_cons_of_mem _ hm2),
        find?_singleton_platform]
      rw [if_neg (by simpa using hne)]
      rfl
    have hfold : handleMembers st (m :: rest) =
        handleMembers (match nickOf m with
          | some n =>
            { ensureMember st m.platformId m.name (nickOf m) with
              memberNicknameMap :=
                mapSet (ensureMember st m.platformId m.name (nickOf m)).memberNicknameMap
                  m.platformId n }
          | none => ensureMember st m.platformId m.name (nickOf m)) rest := rfl
    rw [hfold]
    cases hn : nickOf m with
    | some n =>
      rw [hn] at hens
      rw [hn] at hfr2
      have hmemens : (ensureMember st m.platformId m.name (some n)).db.members =
          st.db.members ++ [⟨st.nextMemberId, m.platformId, m.name, some n⟩] := by
        rw [hens]
      have hnextens : (ensureMember st m.platformId m.name (some n)).nextMemberId =
          st.nextMemberId + 1 := by
        rw [hens]
      have hbm : buildMemberRows st.nextMemberId (m :: rest) =
          ⟨st.nextMemberId, m.platformId, m.name, some n⟩ ::
            buildMemberRows (st.nextMemberId + 1) rest := by
        show (⟨st.nextMemberId, m.platformId, m.name, nickOf m⟩ : MemberRow) ::
          buildMemberRows (st.nextMemberId + 1) rest = _
        rw [hn]
      have hih := ih
        { ensureMember st m.platformId m.name (some n) with
          memberNicknameMap :=
            mapSet (ensureMember st m.platformId m.name (some n)).memberNicknameMap
              m.platformId n }
        hnd2
        (by
          intro m2 hm2
          show (ensureMember st m.platformId m.name (some n)).db.members.find?
            (fun r => r.platformId == m2.platformId) = none
          rw [hmemens]
          exact hfr2 m2 hm2)
      refine hih.trans ?_
      show (ensureMember st m.platformId m.name (some n)).db.members ++
        buildMemberRows (ensureMember st m.platformId m.name (some n)).nextMemberId
          rest = _
      rw [hmemens, hnextens, hbm, List.append_assoc, List.singleton_append]
    | none =>
      rw [hn] at hens
      rw [hn] at hfr2
      have hmemens : (ensureMember st m.platformId m.name none).db.members =
          st.db.members ++ [⟨st.nextMemberId, m.platformId, m.name, none⟩] := by
        rw [hens]
      have hnextens : (ensureMember st m.platformId m.name none).nextMemberId =
          st.nextMemberId + 1 := by
        rw [hens]
      have hbm : buildMemberRows st.nextMemberId (m :: rest) =
          ⟨st.nextMemberId, m.platformId, m.name, none⟩ ::
            buildMemberRows (st.nextMemberId + 1) rest := by
        show (⟨st.nextMemberId, m.platformId, m.name, nickOf m⟩ : MemberRow) ::
          buildMemberRows (st.nextMemberId + 1) rest = _
        rw [hn]
      have hih := ih (ensureMember st m.platformId m.name none) hnd2
        (by
          intro m2 hm2
          rw [hmemens]
          exact hfr2 m2 hm2)
      refine hih.trans ?_
      rw [hmemens, hnextens, hbm, List.append_assoc, List.singleton_append]

/-- One valid message with a cached sender only appends one message row:
members and the row-id cache stay, and tracked names stay within the old
names plus the message's sender name. -/
theorem handleMessage_effects (st : ImportState) (msg : ParsedMessage)
    (hv : isValidMsg msg = true)
    (hhas : mapHas st.memberIdMap msg.senderPlatformId = true) :
    (handleMessage st msg).db.members = st.db.members ∧
    (handleMessage st msg).db.messages.length = st.db.messages.length + 1 ∧
    (handleMessage st msg).memberIdMap = st.memberIdMap ∧
    (∀ P : String → Prop,
      (∀ e ∈ st.nicknameTracker, P (e : String × Tracker).2.currentName) →
      P (senderNameOf msg) →
      ∀ e ∈ (handleMessage st msg).nicknameTracker,
        P (e : String × Tracker).2.currentName) := by
  obtain ⟨sid, hsid⟩ : ∃ sid,
      mapGet st.memberIdMap msg.senderPlatformId = some sid := by
    unfold mapHas at hhas
    cases hg : mapGet st.memberIdMap msg.senderPlatformId with
    | none => rw [hg] at hhas; cases hhas
    | some s => exact ⟨s, rfl⟩
  obtain ⟨ts, hts⟩ : ∃ ts, msg.timestamp = some ts := by
    cases hc : msg.timestamp with
    | none =>
      exfalso
      unfold isValidMsg at hv
      rw [hc] at hv
      simp at hv
    | some ts => exact ⟨ts, rfl⟩
  obtain ⟨ty, hty⟩ : ∃ ty, msg.msgType = some ty := by
    cases hc : msg.msgType with
    | none =>
      exfalso
      unfold isValidMsg at hv
      rw [hc] at hv
      simp at hv
    | some ty => exact ⟨ty, rfl⟩
  have hmsg : handleMessage st msg = trackNickname
      { st with
        db := { st.db with
          messages := st.db.messages ++ [⟨st.nextMessageId, sid, ts, ty, msg.content⟩] }
        nextMessageId := st.nextMessageId + 1 } msg ts := by
    unfold handleMessage
    rw [if_neg (by simp [hv]), if_pos hhas]
    exact handleMessageCore_track st msg sid ts ty hsid hts hty
  rw [hmsg]
  obtain ⟨k1, k2, k3, k4, k5, k6⟩ := trackNickname_effects
    { st with
      db := { st.db with
        messages := st.db.messages ++ [⟨st.nextMessageId, sid, ts, ty, msg.content⟩] }
      nextMessageId := st.nextMessageId + 1 } msg ts
  refine ⟨?_, ?_, ?_, ?_⟩
  · rw [k1]
  · rw [k1]
    simp
  · rw [k2]
  · intro P hst hP
    exact trackNickname_names P _ msg ts hst hP

/-- A fold of valid cached messages appends exactly one row per message
and keeps members, and its tracked names stay within the old names plus
the senders' names. -/
theorem msgsFold_effects (msgs : List ParsedMessage) : ∀ st : ImportState,
    (∀ m ∈ msgs, isValidMsg m = true) →
    (∀ m ∈ msgs, mapHas st.memberIdMap (m : ParsedMessage).senderPlatformId = true) →
    (msgs.foldl handleMessage st).db.members = st.db.members ∧
    (msgs.foldl handleMessage st).db.messages.length =
      st.db.messages.length + msgs.length ∧
    (∀ P : String → Prop,
      (∀ e ∈ st.nicknameTracker, P (e : String × Tracker).2.currentName) →
      (∀ m ∈ msgs, P (senderNameOf m)) →
      ∀ e ∈ (msgs.foldl handleMessage st).nicknameTracker,
        P (e : String × Tracker).2.currentName) := by
  induction msgs with
  | nil =>
    intro st _ _
    exact ⟨rfl, by simp, fun P hst _ => hst⟩
  | cons m rest ih =>
    intro st hval hhas
    obtain ⟨e1, e2, e3, e4⟩ := handleMessage_effects st m
      (hval m (List.mem_cons_self _ _)) (hhas m (List.mem_cons_self _ _))
    obtain ⟨f1, f2, f3⟩ := ih (handleMessage st m)
      (fun m2 hm2 => hval m2 (List.mem_cons_of_mem _ hm2))
      (fun m2 hm2 => by
        unfold mapHas
        rw [e3]
        exact hhas m2 (List.mem_cons_of_mem _ hm2))
    refine ⟨?_, ?_, ?_⟩
    · rw [List.foldl_cons, f1, e1]
    · rw [List.foldl_cons, f2, e2, List.length_cons]
      omega
    · intro P hst hmsgs
      exact f3 P (e4 P hst (hmsgs m (List.mem_cons_self _ _)))
        (fun m2 hm2 => hmsgs m2 (List.mem_cons_of_mem _ hm2))

/-- The finalize fold keeps the message table and the member row ids, and
keeps member names off the reserved system name when the tracked current
names avoid it. -/
theorem finalizeFold_members :
    ∀ (l : List (String × Tracker)) (st : ImportState),
      (l.foldl (fun st e => finalizeTracker st e.1 e.2) st).db.messages =
        st.db.messages ∧
      (l.foldl (fun st e => finalizeTracker st e.1 e.2) st).db.members.map
        MemberRow.id = st.db.members.map MemberRow.id ∧
      ((∀ m ∈ st.db.members, (m : MemberRow).name ≠ systemName) →
       (∀ e ∈ l, (e : String × Tracker).2.currentName ≠ systemName) →
       ∀ m ∈ (l.foldl (fun st e => finalizeTracker st e.1 e.2) st).db.members,
         (m : MemberRow).name ≠ systemName) := by
  intro l
  induction l with
  | nil => intro st; exact ⟨rfl, rfl, fun h _ => h⟩
  | cons e rest ih =>
    intro st
    obtain ⟨k1, k2, k3, k4, k5⟩ := finalizeTracker_effects st e.1 e.2
    obtain ⟨f1, f2, f3⟩ := ih (finalizeTracker st e.1 e.2)
    refine ⟨?_, ?_, ?_⟩
    · rw [List.foldl_cons, f1, k3]
    · rw [List.foldl_cons, f2]
      rcases k4 with h1 | h2
      · rw [h1]
      · rw [h2, updateMemberName_ids]
    · intro hnames htrk
      rw [List.foldl_cons]
      refine f3 ?_ (fun e2 he2 => htrk e2 (List.mem_cons_of_mem _ he2))
      intro m hm
      rcases k4 with h1 | h2
      · rw [h1] at hm
        exact hnames m hm
      · rw [h2] at hm
        obtain ⟨m0, hm0, -, hname⟩ := updateMemberName_names _ _ _ m hm
        rcases hname with ha | hb
        · rw [ha]
          exact hnames m0 hm0
        · rw [hb]
          exact htrk e (List.mem_cons_self _ _)

/-- When every member row is non-system and every message joins to an
existing member row, the session counts are the raw table lengths. -/
theorem sessionCounts_of_db (db : SessionDb)
    (hnames : ∀ m ∈ db.members, (m : MemberRow).name ≠ systemName)
    (hsender : ∀ row ∈ db.messages, ∃ mem ∈ db.members,
      (mem : MemberRow).id = (row : MessageRow).senderId) :
    sessionMessageCount db = db.messages.length ∧
    sessionMemberCount db = db.members.length := by
  constructor
  · unfold sessionMessageCount
    have hall : ∀ row ∈ db.messages,
        ((match findMember db.members (row : MessageRow).senderId with
          | some mem => mem.name != systemName
          | none => false) = true) := by
      intro row hrow
      obtain ⟨mem, hmem, hid⟩ := hsender row hrow
      unfold findMember
      cases hf : db.members.find? (fun m2 => m2.id == row.senderId) with
      | none =>
        exfalso
        have hnone := List.find?_eq_none.mp hf mem hmem
        simp [hid] at hnone
      | some mem2 =>
        have hmem2 : mem2 ∈ db.members := List.mem_of_find?_eq_some hf
        simpa using hnames mem2 hmem2
    rw [List.filter_eq_self.mpr hall]
  · unfold sessionMemberCount
    have hall : ∀ m ∈ db.members, ((m : MemberRow).name != systemName) = true := by
      intro m hm
      simpa using hnames m hm
    rw [List.filter_eq_self.mpr hall]

/-- C2 counterexample: for a file whose head member list misses a message
sender, the parser's done event reports 1 member while the stored session
reports 2 members (the sender row is auto-created during the message
pass), so the stored member count differs from the done-event count. -/
theorem import_counts_mismatch :
    doneCounts (parseChatLab mismatchFile 100) = some (1, 1) ∧
    sessionMessageCount (streamImport mismatchFile 100).db = 1 ∧
    sessionMemberCount (streamImport mismatchFile 100).db = 2 := by
  decide

/-- C2 amended: when the head member list covers every message sender,
with distinct platform ids, valid messages and no reserved system names,
the stored session counts equal the parser's done-event counts. -/
theorem import_counts_match (file : ChatLabFile) (bs : Nat)
    (hpos : 0 < file.headMembers.length)
    (hnd : (file.headMembers.map ChatLabMember.platformId).Nodup)
    (hval : ∀ m ∈ file.messages, (m : ChatLabMsg).sender ≠ "" ∧
      (m : ChatLabMsg).name ≠ "" ∧ (m : ChatLabMsg).timestamp.isSome = true ∧
      (m : ChatLabMsg).msgType.isSome = true)
    (hcover : ∀ m ∈ file.messages, ∃ hm ∈ file.headMembers,
      (hm : ChatLabMember).platformId = (m : ChatLabMsg).sender)
    (hhm : ∀ hm ∈ file.headMembers, (hm : ChatLabMember).name ≠ systemName)
    (hmn : ∀ m ∈ file.messages, (m : ChatLabMsg).name ≠ systemName) :
    doneCounts (parseChatLab file bs) =
      some (sessionMessageCount (streamImport file bs).db,
            sessionMemberCount (streamImport file bs).db) := by
  have hms : parsedMembersOf file =
      file.headMembers.map (fun m => (⟨m.platformId, m.name, none⟩ : ParsedMember)) := by
    unfold parsedMembersOf
    rw [if_pos hpos]
  have hmspid : (parsedMembersOf file).map ParsedMember.platformId =
      file.headMembers.map ChatLabMember.platformId := by
    rw [hms, List.map_map]
    rfl
  have hndp : ((parsedMembersOf file).map ParsedMember.platformId).Nodup := by
    rw [hmspid]
    exact hnd
  have hfr0 : ∀ m ∈ parsedMembersOf file,
      importInit.db.members.find? (fun r => r.platformId == m.platformId) = none :=
    fun _ _ => rfl
  obtain ⟨hwf0, hmsg0, -, htr0, -, hcov0⟩ :=
    handleMembers_wf (parsedMembersOf file) importInit importInit_wf
  have hmem0 : (handleMembers importInit (parsedMembersOf file)).db.members =
      buildMemberRows 1 (parsedMembersOf file) :=
    (handleMembers_fresh (parsedMembersOf file) importInit hndp hfr0).trans
      (List.nil_append _)
  have hvalm : ∀ mm ∈ parsedMessagesOf file, isValidMsg mm = true := by
    intro mm hmm
    obtain ⟨m, hm, rfl⟩ := List.mem_map.mp hmm
    obtain ⟨h1, h2, h3, h4⟩ := hval m hm
    unfold isValidMsg
    simp [h1, h2, h3, h4]
  have hhasm : ∀ mm ∈ parsedMessagesOf file,
      mapHas (handleMembers importInit (parsedMembersOf file)).memberIdMap
        (mm : ParsedMessage).senderPlatformId = true := by
    intro mm hmm
    obtain ⟨m, hm, rfl⟩ := List.mem_map.mp hmm
    obtain ⟨hm2, hm2mem, hm2pid⟩ := hcover m hm
    have hmem : (⟨hm2.platformId, hm2.name, none⟩ : ParsedMember) ∈
        parsedMembersOf file := by
      rw [hms]
      exact List.mem_map.mpr ⟨hm2, hm2mem, rfl⟩
    have hc := hcov0 _ hmem
    show mapHas (handleMembers importInit (parsedMembersOf file)).memberIdMap
      m.sender = true
    rw [← hm2pid]
    exact hc
  have hnamem : ∀ mm ∈ parsedMessagesOf file,
      senderNameOf mm ≠ systemName := by
    intro mm hmm
    obtain ⟨m, hm, rfl⟩ := List.mem_map.mp hmm
    obtain ⟨-, h2, -, -⟩ := hval m hm
    unfold senderNameOf
    rw [if_neg h2]
    exact hmn m hm
  obtain ⟨g1, g2, g3⟩ := msgsFold_effects (parsedMessagesOf file)
    (handleMembers importInit (parsedMembersOf file)) hvalm hhasm
  have hwf1 := (msgsFold_wf (parsedMessagesOf file)
    (handleMembers importInit (parsedMembersOf file)) hwf0).1
  have hnames1 : ∀ m ∈ ((parsedMessagesOf file).foldl handleMessage
      (handleMembers importInit (parsedMembersOf file))).db.members,
      (m : MemberRow).name ≠ systemName := by
    intro m hm
    rw [g1, hmem0] at hm
    obtain ⟨m2, hm2, hname⟩ := buildMemberRows_names (parsedMembersOf file) 1 m hm
    rw [hname]
    rw [hms] at hm2
    obtain ⟨hm3, hm3mem, rfl⟩ := List.mem_map.mp hm2
    exact hhm hm3 hm3mem
  have htrk1 : ∀ e ∈ ((parsedMessagesOf file).foldl handleMessage
      (handleMembers importInit (parsedMembersOf file))).nicknameTracker,
      (e : String × Tracker).2.currentName ≠ systemName := by
    refine g3 (fun s => s ≠ systemName) ?_ hnamem
    intro e he
    rw [htr0] at he
    exact absurd he (List.not_mem_nil _)
  obtain ⟨p1a, p2a, p3a⟩ := finalizeFold_members
    ((parsedMessagesOf file).foldl handleMessage
      (handleMembers importInit (parsedMembersOf file))).nicknameTracker
    ((parsedMessagesOf file).foldl handleMessage
      (handleMembers importInit (parsedMembersOf file)))
  have p1 : (finalizeNicknames ((parsedMessagesOf file).foldl handleMessage
      (handleMembers importInit (parsedMembersOf file)))).db.messages =
      ((parsedMessagesOf file).foldl handleMessage
        (handleMembers importInit (parsedMembersOf file))).db.messages := p1a
  have p2 : (finalizeNicknames ((parsedMessagesOf file).foldl handleMessage
      (handleMembers importInit (parsedMembersOf file)))).db.members.map
        MemberRow.id =
      ((parsedMessagesOf file).foldl handleMessage
        (handleMembers importInit (parsedMembersOf file))).db.members.map
        MemberRow.id := p2a
  have p3 : (∀ m ∈ ((parsedMessagesOf file).foldl handleMessage
        (handleMembers importInit (parsedMembersOf file))).db.members,
        (m : MemberRow).name ≠ systemName) →
      (∀ e ∈ ((parsedMessagesOf file).foldl handleMessage
        (handleMembers importInit (parsedMembersOf file))).nicknameTracker,
        (e : String × Tracker).2.currentName ≠ systemName) →
      ∀ m ∈ (finalizeNicknames ((parsedMessagesOf file).foldl handleMessage
        (handleMembers importInit (parsedMembersOf file)))).db.members,
        (m : MemberRow).name ≠ systemName := p3a
  have hstream : streamImport file bs = finalizeNicknames
      ((parsedMessagesOf file).foldl handleMessage
        (handleMembers importInit (parsedMembersOf file))) := by
    unfold streamImport
    rw [runImport_parse file bs]
  have hnamesF := p3 hnames1 htrk1
  have hsenderF : ∀ row ∈ (finalizeNicknames
      ((parsedMessagesOf file).foldl handleMessage
        (handleMembers importInit (parsedMembersOf file)))).db.messages,
      ∃ mem ∈ (finalizeNicknames
        ((parsedMessagesOf file).foldl handleMessage
          (handleMembers importInit (parsedMembersOf file)))).db.members,
        (mem : MemberRow).id = (row : MessageRow).senderId := by
    intro row hrow
    have hrow1 : row ∈ ((parsedMessagesOf file).foldl handleMessage
        (handleMembers importInit (parsedMembersOf file))).db.messages := by
      rw [← p1]
      exact hrow
    obtain ⟨mem, hmem, hid⟩ := hwf1.2.2.2 row hrow1
    have hin : mem.id ∈ (finalizeNicknames
        ((parsedMessagesOf file).foldl handleMessage
          (handleMembers importInit (parsedMembersOf file)))).db.members.map
        MemberRow.id := by
      rw [p2]
      exact List.mem_map.mpr ⟨mem, hmem, rfl⟩
    obtain ⟨mem2, hmem2, hid2⟩ := List.mem_map.mp hin
    exact ⟨mem2, hmem2, by rw [hid2, hid]⟩
  obtain ⟨c1, c2⟩ := sessionCounts_of_db (finalizeNicknames
    ((parsedMessagesOf file).foldl handleMessage
      (handleMembers importInit (parsedMembersOf file)))).db hnamesF hsenderF
  have hA : sessionMessageCount (streamImport file bs).db =
      file.messages.length := by
    rw [hstream, c1, p1, g2, hmsg0]
    unfold parsedMessagesOf
    simp [importInit]
  have hB : sessionMemberCount (streamImport file bs).db =
      (parsedMembersOf file).length := by
    rw [hstream, c2]
    have hlenm := congrArg List.length p2
    rw [List.length_map, List.length_map] at hlenm
    rw [hlenm, g1, hmem0, buildMemberRows_length]
  rw [doneCounts_parse file bs, hA, hB]

/-- C2 witness: the amended count equality applied to a concrete file
that satisfies the coverage conditions. -/
theorem import_counts_match_witness :
    doneCounts (parseChatLab okFile 2) =
      some (sessionMessageCount (streamImport okFile 2).db,
            sessionMemberCount (streamImport okFile 2).db) :=
  import_counts_match okFile 2 (by decide) (by decide) (by decide)
    (by decide) (by decide) (by decide)

end ChatLab
